import Mathlib

/-! # ytwrk comment worker: embedding of `worker/producer/worker.go`

The worker streams the comments of one video into an output channel.  The Go
code is a small concurrent program: one goroutine per comment thread (a
"branch"), one goroutine waiting on a `sync.WaitGroup` to close the shared
comment channel, and the caller's goroutine draining that channel.

The embedding has three layers.

* The collaborators that the worker only calls (`api.*`, `net.Client.Do`,
  `backoff.Retry`, `json.Marshal`) are the fields of `Upstream`.
* The sequential functions (`nextCommentPage`, `simpleGetVideo`, the set-up
  part of `streamComments`) are state-passing functions.
* The goroutines are control states (`Branch`, `Main`, `Waiter`); `step`
  executes one atomic action of one goroutine, `exec` runs a schedule.
  Every interleaving of the goroutines is a schedule.

What the model takes for granted.

* A call of `nextCommentPage` is one step of its branch.  What it does to the
  shared state is to append to the transport log and to the log and to add to
  the two atomic counters.
* Continuations are values: `api.CommentRepliesContinuation` and
  `page.NewComments` do not alias the `*cont` of the caller.
* The reader of `out` is always ready, so `out <- commentBuf` does not block.
* The index `i` of a walk is only logged; it is an unbounded integer here.
* A panic in any goroutine ends the process: no step follows it.
-/

namespace Ytwrk

/-! ## Data model -/

/-- Go `error` values that the worker can observe.  `continuationLimitReached`
is the package variable of `worker.go:17`, `ErrNoFreeConns` is
`fasthttp.ErrNoFreeConns`; the two `fmt.Errorf` values of `streamComments` have
their own constructors and every error made by a collaborator is `other`. -/
inductive GoError where
  | continuationLimitReached
  | ErrNoFreeConns
  | failedToRequestComments
  | unknownSortOrder (sort : String)
  | other (msg : String)
  deriving DecidableEq, Repr

/-- Lines written through `logrus`. -/
inductive LogEntry where
  | info (msg : String) (index : Int) (parentID : String)
  | warn (msg : String)
  | error (msg : String) (err : GoError)
  deriving DecidableEq, Repr

/-- Modelled from the spec: the `Job` struct is declared outside `worker.go`;
these are the fields the worker uses: the video identifier, the sort order and
the two `int64` counters `Pages` and `Items` ("running counters ... updated
atomically").  The Go field `Sort` is `SortOrder` here, `Sort` being reserved
in Lean. -/
structure Job where
  VideoID : String
  SortOrder : String
  Pages : Int
  Items : Int
  deriving DecidableEq, Repr

/-- Two's complement wrap-around of an `int64` result. -/
def wrapInt64 (x : Int) : Int := (x + 2 ^ 63) % 2 ^ 64 - 2 ^ 63

/-- Body of `atomic.AddInt64(addr, delta)`: the new value of `*addr`. -/
def atomicAddInt64 (v delta : Int) : Int := wrapInt64 (v + delta)

/-- Value of an `api.CommentContinuation`: the parent comment (empty for the
top-level feed) and the remaining, opaque cursor fields. -/
structure CommentContinuation (Tok : Type) where
  ParentID : String
  Token : Tok
  deriving DecidableEq, Repr

/-- An `api.CommentPage`.  `NewComments` is a pointer in Go, hence an `Option`. -/
structure CommentPage (Tok Cmt : Type) where
  Comments : List Cmt
  MoreComments : Bool
  NewComments : Option (CommentContinuation Tok)
  CommentParseErrs : List GoError

/-- What the worker reads of a `fasthttp.Response`. -/
structure Response (Body : Type) where
  StatusCode : Nat
  Body : Body

/-- The two requests the worker builds: `api.GrabVideo(videoID)` and
`api.GrabCommentPage(cont)`. -/
inductive Request (Tok : Type) where
  | video (videoID : String)
  | commentPage (cont : CommentContinuation Tok)
  deriving DecidableEq, Repr

/-- Constant `fasthttp.StatusRequestEntityTooLarge`. -/
def StatusRequestEntityTooLarge : Nat := 413

/-- Constant `fasthttp.StatusRequestURITooLong`. -/
def StatusRequestURITooLong : Nat := 414

/-- The collaborators of the worker.  `Do` is `net.Client.Do`: its answer may
depend on the requests issued so far.  `backoffBudget` is the number of times
the `ExponentialBackOff` of a `backoff.Retry` call hands out a further delay
before it answers `Stop`.  `ParseCommentsPage` returns the page together with
the value it leaves in `*cont`. -/
structure Upstream (Tok Cmt Body Vid : Type) where
  GetVideoID : String → Except GoError String
  Do : List (Request Tok) → Request Tok → Except GoError (Response Body)
  backoffBudget : Nat
  ParseVideo : String → Response Body → Except GoError Vid
  InitialCommentContinuation : Vid → Option (CommentContinuation Tok)
  ParseCommentsPage : Response Body → CommentContinuation Tok →
    Except GoError (CommentPage Tok Cmt × CommentContinuation Tok)
  CommentRepliesContinuation : Cmt → CommentContinuation Tok →
    Option (CommentContinuation Tok)
  Marshal : Cmt → Except GoError String

/-- State shared by all goroutines of one job: the job with its counters, the
requests handed to the transport so far, and the log. -/
structure Shared (Tok : Type) where
  job : Job
  net : List (Request Tok)
  logs : List LogEntry

variable {Tok Cmt Body Vid : Type}

/-! ## Retry and the page fetch -/

/-- Result of one run of the operation passed to `backoff.Retry`: `nil` (with
the response left in `res`), an error to retry, or a `backoff.Permanent`. -/
inductive Attempt (Body : Type) where
  | ok (res : Response Body)
  | retry (err : GoError)
  | permanent (err : GoError)

/-- The loop of `backoff.Retry(op, b)`: run `op`; stop on `nil` or on a
permanent error; otherwise ask the back-off for a delay and stop with the last
error when it has none left. -/
def Retry {σ : Type} (op : σ → Attempt Body × σ) : Nat → σ → Except GoError (Response Body) × σ
  | 0, s =>
    match op s with
    | (.ok res, s1) => (.ok res, s1)
    | (.permanent err, s1) => (.error err, s1)
    | (.retry err, s1) => (.error err, s1)
  | budget + 1, s =>
    match op s with
    | (.ok res, s1) => (.ok res, s1)
    | (.permanent err, s1) => (.error err, s1)
    | (.retry _, s1) => Retry op budget s1

/-- The closure given to `backoff.Retry` in `nextCommentPage` and in
`simpleGetVideo`: one `net.Client.Do(req, res)`. -/
def doRequest (up : Upstream Tok Cmt Body Vid) (req : Request Tok) (sh : Shared Tok) :
    Attempt Body × Shared Tok :=
  match up.Do sh.net req with
  | .error err =>
    if err = GoError.ErrNoFreeConns then
      (.retry err, { sh with net := sh.net ++ [req],
                             logs := sh.logs ++ [.warn "No free conns, throttling"] })
    else
      (.permanent err, { sh with net := sh.net ++ [req] })
  | .ok res => (.ok res, { sh with net := sh.net ++ [req] })

/-- Function `simpleGetVideo` (worker.go:91-117). -/
def simpleGetVideo (up : Upstream Tok Cmt Body Vid) (sh : Shared Tok) (videoID : String) :
    Except GoError Vid × Shared Tok :=
  match Retry (doRequest up (.video videoID)) up.backoffBudget sh with
  | (.error err, sh1) => (.error err, sh1)
  | (.ok res, sh1) =>
    match up.ParseVideo videoID res with
    | .error err => (.error err, sh1)
    | .ok v => (.ok v, sh1)

/-- Method `videoCommentsJob.nextCommentPage` (worker.go:199-243).  The second
component of a successful result is the value of `*cont` after the call. -/
def videoCommentsJob.nextCommentPage (up : Upstream Tok Cmt Body Vid) (sh : Shared Tok)
    (cont : CommentContinuation Tok) (i : Int) :
    Except GoError (CommentPage Tok Cmt × CommentContinuation Tok) × Shared Tok :=
  match Retry (doRequest up (.commentPage cont)) up.backoffBudget sh with
  | (.error err, sh1) => (.error err, sh1)
  | (.ok res, sh1) =>
    if res.StatusCode = StatusRequestEntityTooLarge ∨
        res.StatusCode = StatusRequestURITooLong then
      (.error .continuationLimitReached, sh1)
    else
      match up.ParseCommentsPage res cont with
      | .error err => (.error err, sh1)
      | .ok (page, cont1) =>
        let parseLogs := page.CommentParseErrs.map (LogEntry.error "Failed to parse comment")
        let pageLog :=
          if cont1.ParentID = "" then LogEntry.info "Page" i ""
          else LogEntry.info "Sub page" i cont1.ParentID
        (.ok (page, cont1),
          { job := { sh1.job with
                      Pages := atomicAddInt64 sh1.job.Pages 1,
                      Items := atomicAddInt64 sh1.job.Items page.Comments.length },
            net := sh1.net,
            logs := sh1.logs ++ parseLogs ++ [pageLog] })

/-! ## Goroutines

Every goroutine is a control state.  A branch goroutine runs one of the three
traversal methods; `Action` is what one atomic step of a branch asks of the
rest of the program. -/

/-- Control points of `videoCommentsJob.streamComments` (worker.go:119-149).
`fetch`: line 123, about to call `nextCommentPage(cont, i)`.
`range`: line 128, `cs` are the comments of the page not yet visited and `more`
is `page.MoreComments`.  `send`: line 137, blocked in `j.comments <- c`. -/
inductive WalkPC (Tok Cmt : Type) where
  | fetch (cont : CommentContinuation Tok) (i : Int)
  | range (cont : CommentContinuation Tok) (i : Int) (more : Bool) (cs : List Cmt)
  | send (cont : CommentContinuation Tok) (i : Int) (more : Bool) (c : Cmt) (cs : List Cmt)
  deriving DecidableEq

/-- Control points of `videoCommentsJob.streamLiveComments` (worker.go:164-197).
`prime`: line 169.  `fetch`: line 177.  `range`: line 182.  `send`: line 191. -/
inductive LivePC (Tok Cmt : Type) where
  | prime (cont : CommentContinuation Tok)
  | fetch (cont : CommentContinuation Tok) (i : Int)
  | range (cont : CommentContinuation Tok) (i : Int) (cs : List Cmt)
  | send (cont : CommentContinuation Tok) (i : Int) (c : Cmt) (cs : List Cmt)
  deriving DecidableEq

/-- A branch goroutine: the method it runs and where it stands, or `returned`
once its function has returned and the deferred `j.wg.Done()` has run. -/
inductive Branch (Tok Cmt : Type) where
  | streamComments (pc : WalkPC Tok Cmt)
  | streamNewComments (cont : CommentContinuation Tok)
  | streamLiveComments (pc : LivePC Tok Cmt)
  | returned
  deriving DecidableEq

/-- One atomic step of a branch.  `goto`: move on.  `spawn b child`:
`j.wg.Add(1)`, `go` the child, move on to `b`.  `send c b`: hand `c` to the
receiver of `j.comments`, then move on to `b`.  `exit`: return, which runs the
deferred `j.wg.Done()`.  `panic`: a run-time panic. -/
inductive Action (Tok Cmt : Type) where
  | goto (b : Branch Tok Cmt)
  | spawn (b child : Branch Tok Cmt)
  | send (c : Cmt) (b : Branch Tok Cmt)
  | exit
  | panic
  deriving DecidableEq

/-- Lines 144-148: what `streamComments` logs for the error that ended its loop. -/
def walkExitLog (err : GoError) : LogEntry :=
  if err = GoError.continuationLimitReached then .warn "Continuation limit reached"
  else .error "Comment stream aborted" err

/-- Appends one line to the log. -/
def Shared.log (sh : Shared Tok) (e : LogEntry) : Shared Tok :=
  { sh with logs := sh.logs ++ [e] }

/-- Method `videoCommentsJob.streamComments` (worker.go:119-149), one step from
each control point. -/
def videoCommentsJob.streamComments (up : Upstream Tok Cmt Body Vid) (sh : Shared Tok) :
    WalkPC Tok Cmt → Action Tok Cmt × Shared Tok
  | .fetch cont i =>
    match videoCommentsJob.nextCommentPage up sh cont i with
    | (.error err, sh1) => (.exit, sh1.log (walkExitLog err))
    | (.ok (page, cont1), sh1) =>
      (.goto (.streamComments (.range cont1 i page.MoreComments page.Comments)), sh1)
  | .range cont i more [] =>
    if more then (.goto (.streamComments (.fetch cont (i + 1))), sh) else (.exit, sh)
  | .range cont i more (c :: cs) =>
    match up.CommentRepliesContinuation c cont with
    | some subCont =>
      (.spawn (.streamComments (.send cont i more c cs))
        (.streamComments (.fetch subCont 0)), sh)
    | none => (.goto (.streamComments (.send cont i more c cs)), sh)
  | .send cont i more c cs => (.send c (.streamComments (.range cont i more cs)), sh)

/-- Method `videoCommentsJob.streamNewComments` (worker.go:151-162): the priming
fetch, the re-base `*cont = *page.NewComments`, then the walk. -/
def videoCommentsJob.streamNewComments (up : Upstream Tok Cmt Body Vid) (sh : Shared Tok)
    (cont : CommentContinuation Tok) : Action Tok Cmt × Shared Tok :=
  match videoCommentsJob.nextCommentPage up sh cont (-1) with
  | (.error err, sh1) => (.exit, sh1.log (.error "Comment stream aborted" err))
  | (.ok (page, _), sh1) =>
    match page.NewComments with
    | none => (.panic, sh1)
    | some newCont => (.goto (.streamComments (.fetch newCont 0)), sh1)

/-- Method `videoCommentsJob.streamLiveComments` (worker.go:164-197), one step
from each control point. -/
def videoCommentsJob.streamLiveComments (up : Upstream Tok Cmt Body Vid) (sh : Shared Tok) :
    LivePC Tok Cmt → Action Tok Cmt × Shared Tok
  | .prime cont =>
    match videoCommentsJob.nextCommentPage up sh cont (-1) with
    | (.error err, sh1) => (.exit, sh1.log (.error "Comment stream aborted" err))
    | (.ok (page, _), sh1) =>
      match page.NewComments with
      | none => (.panic, sh1)
      | some newCont => (.goto (.streamLiveComments (.fetch newCont 0)), sh1)
  | .fetch cont i =>
    match videoCommentsJob.nextCommentPage up sh cont i with
    | (.error err, sh1) => (.exit, sh1.log (.error "Comment stream aborted" err))
    | (.ok (page, _), sh1) =>
      match page.NewComments with
      | none => (.panic, sh1)
      | some newCont => (.goto (.streamLiveComments (.range newCont i page.Comments)), sh1)
  | .range cont i [] => (.goto (.streamLiveComments (.fetch cont (i + 1))), sh)
  | .range cont i (c :: cs) =>
    match up.CommentRepliesContinuation c cont with
    | some subCont =>
      (.spawn (.streamLiveComments (.send cont i c cs))
        (.streamComments (.fetch subCont 0)), sh)
    | none => (.goto (.streamLiveComments (.send cont i c cs)), sh)
  | .send cont i c cs => (.send c (.streamLiveComments (.range cont i cs)), sh)

/-- The step a branch takes next; a branch that has returned takes none. -/
def Branch.act (up : Upstream Tok Cmt Body Vid) (sh : Shared Tok) :
    Branch Tok Cmt → Option (Action Tok Cmt × Shared Tok)
  | .streamComments pc => some (videoCommentsJob.streamComments up sh pc)
  | .streamNewComments cont => some (videoCommentsJob.streamNewComments up sh cont)
  | .streamLiveComments pc => some (videoCommentsJob.streamLiveComments up sh pc)
  | .returned => none

/-- The goroutine that called `streamComments`, in the loop of lines 74-78:
`recv` waits on `j.comments`, `hold c` has received `c` and has yet to marshal
and forward it, `returned err` is the function's result. -/
inductive Main (Cmt : Type) where
  | recv
  | hold (c : Cmt)
  | returned (err : Option GoError)
  deriving DecidableEq

/-- The goroutine of lines 69-72: not started, in `j.wg.Wait()`, about to
`close(j.comments)`, finished. -/
inductive Waiter where
  | absent
  | wait
  | close
  | done
  deriving DecidableEq, Repr

/-- One job in flight: shared state, the wait-group counter, whether
`j.comments` is closed, every branch goroutine started so far (in the order of
their `go` statements), the two other goroutines, what has been written to
`out`, and whether a panic has ended the process. -/
structure State (Tok Cmt : Type) where
  shared : Shared Tok
  wg : Nat
  closed : Bool
  branches : List (Branch Tok Cmt)
  main : Main Cmt
  waiter : Waiter
  out : List String
  crashed : Bool

/-- Names of the goroutines of one job. -/
inductive Tid where
  | main
  | waiter
  | branch (n : Nat)
  deriving DecidableEq, Repr

/-- A panic ends the process. -/
def State.crash (s : State Tok Cmt) : State Tok Cmt := { s with crashed := true }

/-- One step of branch `n`.  A send needs the receiver in `recv` (the channel
is unbuffered) and panics on a closed channel; `Done` panics on a zero
counter. -/
def stepBranch (up : Upstream Tok Cmt Body Vid) (s : State Tok Cmt) (n : Nat) :
    Option (State Tok Cmt) :=
  match s.branches[n]? with
  | none => none
  | some b =>
    match b.act up s.shared with
    | none => none
    | some (.goto b1, sh) => some { s with shared := sh, branches := s.branches.set n b1 }
    | some (.spawn b1 child, sh) =>
      some { s with shared := sh, wg := s.wg + 1,
                    branches := s.branches.set n b1 ++ [child] }
    | some (.send c b1, sh) =>
      if s.closed then some { s with shared := sh, crashed := true }
      else
        match s.main with
        | .recv => some { s with shared := sh, main := .hold c,
                                 branches := s.branches.set n b1 }
        | _ => none
    | some (.exit, sh) =>
      if s.wg = 0 then some { s with shared := sh, crashed := true }
      else some { s with shared := sh, wg := s.wg - 1,
                         branches := s.branches.set n .returned }
    | some (.panic, sh) => some { s with shared := sh, crashed := true }

/-- One step of the caller's goroutine (lines 74-79): leave the loop when the
channel is closed, or marshal the held comment and write it to `out`. -/
def stepMain (up : Upstream Tok Cmt Body Vid) (s : State Tok Cmt) : Option (State Tok Cmt) :=
  match s.main with
  | .recv => if s.closed then some { s with main := .returned none } else none
  | .hold c =>
    match up.Marshal c with
    | .error _ => some s.crash
    | .ok commentBuf => some { s with out := s.out ++ [commentBuf], main := .recv }
  | .returned _ => none

/-- One step of the goroutine of lines 69-72. -/
def stepWaiter (s : State Tok Cmt) : Option (State Tok Cmt) :=
  match s.waiter with
  | .absent => none
  | .wait => if s.wg = 0 then some { s with waiter := .close } else none
  | .close => if s.closed then some s.crash else some { s with closed := true, waiter := .done }
  | .done => none

/-- One step of goroutine `t`, `none` when it is blocked or finished or the
process has crashed. -/
def step (up : Upstream Tok Cmt Body Vid) (s : State Tok Cmt) (t : Tid) :
    Option (State Tok Cmt) :=
  if s.crashed then none
  else
    match t with
    | .main => stepMain up s
    | .waiter => stepWaiter s
    | .branch n => stepBranch up s n

/-- Runs a schedule: each entry names the goroutine that moves next; an entry
naming a goroutine that cannot move is skipped. -/
def exec (up : Upstream Tok Cmt Body Vid) : State Tok Cmt → List Tid → State Tok Cmt
  | s, [] => s
  | s, t :: ts => exec up ((step up s t).getD s) ts

/-- The state in which `streamComments` returns `err` from its set-up. -/
def failed (sh : Shared Tok) (err : GoError) : State Tok Cmt :=
  { shared := sh, wg := 0, closed := false, branches := [], main := .returned (some err),
    waiter := .absent, out := [], crashed := false }

/-- The state after lines 64-72: `j.wg.Add(1)`, the root branch and the waiter
started, the caller entering its receive loop. -/
def launched (sh : Shared Tok) (root : Branch Tok Cmt) : State Tok Cmt :=
  { shared := sh, wg := 1, closed := false, branches := [root], main := .recv,
    waiter := .wait, out := [], crashed := false }

/-- Function `streamComments` (worker.go:36-80) up to the start of its
goroutines; the loop of lines 74-79 is `stepMain`. -/
def streamComments (up : Upstream Tok Cmt Body Vid) (job : Job) : State Tok Cmt :=
  let sh0 : Shared Tok := { job := job, net := [], logs := [] }
  match up.GetVideoID job.VideoID with
  | .error err => failed sh0 err
  | .ok videoID =>
    match simpleGetVideo up sh0 videoID with
    | (.error err, sh1) => failed sh1 err
    | (.ok vid, sh1) =>
      match up.InitialCommentContinuation vid with
      | none => failed sh1 .failedToRequestComments
      | some cont =>
        if job.SortOrder = "top" then launched sh1 (.streamComments (.fetch cont 0))
        else if job.SortOrder = "age" then launched sh1 (.streamNewComments cont)
        else if job.SortOrder = "live" then launched sh1 (.streamLiveComments (.prime cont))
        else failed sh1 (.unknownSortOrder job.SortOrder)

/-- A deterministic scheduler: the goroutines in the order main, waiter,
branch 0, branch 1, ... -/
def tids (s : State Tok Cmt) : List Tid :=
  Tid.main :: Tid.waiter :: (List.range s.branches.length).map Tid.branch

/-- The first goroutine of `tids` that can move, with the state it moves to. -/
def firstStep (up : Upstream Tok Cmt Body Vid) (s : State Tok Cmt) : Option (State Tok Cmt) :=
  (tids s).findSome? (step up s)

/-- Runs the deterministic scheduler for at most `fuel` steps. -/
def run (up : Upstream Tok Cmt Body Vid) : Nat → State Tok Cmt → State Tok Cmt
  | 0, s => s
  | fuel + 1, s =>
    match firstStep up s with
    | none => s
    | some s1 => run up fuel s1

/-! ## A finite upstream fixture

A comment feed as a tree: the cursor of a thread is what is left of it. -/

/-- What is left of a comment thread, seen from the start of a page or from
inside one.  `last`: the page ends and `MoreComments` is false.  `more f`: the
page ends, `MoreComments` is true and `f` is the next page.  `comment c f`: a
comment without replies, then `f`.  `thread c r f`: a comment whose replies are
the thread `r`, then `f`.  `limit uri`: the request for this page is answered
with status 414 (`uri`) or 413.  `fail`: the request for this page fails in the
transport. -/
inductive Feed where
  | last
  | more (next : Feed)
  | comment (text : String) (rest : Feed)
  | thread (text : String) (replies : Feed) (rest : Feed)
  | limit (uri : Bool)
  | fail
  deriving DecidableEq, Repr

/-- A comment of the fixture: its text and, when it has replies, their thread. -/
structure FeedComment where
  text : String
  replies : Option Feed
  deriving DecidableEq, Repr

/-- The first page of a feed: its comments, `MoreComments`, and the cursor of
the next page. -/
def Feed.page : Feed → List FeedComment × Bool × Feed
  | .last => ([], false, .last)
  | .more next => ([], true, next)
  | .comment text rest =>
    let p := rest.page
    (⟨text, none⟩ :: p.1, p.2.1, p.2.2)
  | .thread text replies rest =>
    let p := rest.page
    (⟨text, some replies⟩ :: p.1, p.2.1, p.2.2)
  | .limit uri => ([], true, .limit uri)
  | .fail => ([], true, .fail)

/-- Every comment text of a feed, on all pages and at every reply depth. -/
def Feed.texts : Feed → List String
  | .last => []
  | .more next => next.texts
  | .comment text rest => text :: rest.texts
  | .thread text replies rest => text :: (replies.texts ++ rest.texts)
  | .limit _ => []
  | .fail => []

/-- Every request of the feed is answered and parsed: no `limit`, no `fail`. -/
def Feed.succeeds : Feed → Bool
  | .last => true
  | .more next => next.succeeds
  | .comment _ rest => rest.succeeds
  | .thread _ replies rest => replies.succeeds && rest.succeeds
  | .limit _ => false
  | .fail => false

/-- The upstream that serves the feed `root` as the comments of every video.
The cursor of a continuation is the feed left to read; a comment marshals to
its text. -/
def feedUpstream (root : Feed) (budget : Nat) : Upstream Feed FeedComment Feed Feed where
  GetVideoID := fun id => .ok id
  Do := fun _ req =>
    match req with
    | .video _ => .ok ⟨200, root⟩
    | .commentPage cont =>
      match cont.Token with
      | .limit uri =>
        .ok ⟨if uri then StatusRequestURITooLong else StatusRequestEntityTooLarge, cont.Token⟩
      | .fail => .error (.other "connection reset")
      | t => .ok ⟨200, t⟩
  backoffBudget := budget
  ParseVideo := fun _ res => .ok res.Body
  InitialCommentContinuation := fun vid => some ⟨"", vid⟩
  ParseCommentsPage := fun res cont =>
    .ok (⟨res.Body.page.1, res.Body.page.2.1, none, []⟩, { cont with Token := res.Body.page.2.2 })
  CommentRepliesContinuation := fun c _ => c.replies.map fun r => ⟨c.text, r⟩
  Marshal := fun c => .ok c.text

/-! ## Invariants of the goroutine system -/

/-- Whether a branch goroutine has not returned yet. -/
def Branch.isLive : Branch Tok Cmt → Bool
  | .returned => false
  | _ => true

/-- Number of branch goroutines that were started and have not returned. -/
def liveCount (bs : List (Branch Tok Cmt)) : Nat :=
  (bs.map fun b => if b.isLive then 1 else 0).sum

/-- What holds in every state of a job, whatever the upstream and the schedule. -/
structure Inv (s : State Tok Cmt) : Prop where
  wg_eq : s.wg = liveCount s.branches
  absent : s.waiter = .absent →
    s.branches = [] ∧ s.out = [] ∧ s.closed = false ∧ ∃ e, s.main = .returned (some e)
  started : s.waiter ≠ .absent → ∀ e, s.main ≠ .returned (some e)
  close : s.waiter = .close → s.wg = 0 ∧ s.closed = false
  wait : s.waiter = .wait → s.closed = false
  done : s.waiter = .done → s.closed = true ∧ s.wg = 0
  mainNil : s.main = .returned none → s.closed = true

/-- The branches named by an action are live. -/
def Action.targetsLive : Action Tok Cmt → Prop
  | .goto b => b.isLive = true
  | .spawn b child => b.isLive = true ∧ child.isLive = true
  | .send _ b => b.isLive = true
  | .exit => True
  | .panic => True

/-- What branch `n` does to the state when its next action is `a`, in a state
where the channel is open and the counter is positive. -/
def applyAction (s : State Tok Cmt) (n : Nat) (sh : Shared Tok) :
    Action Tok Cmt → Option (State Tok Cmt)
  | .goto b1 => some { s with shared := sh, branches := s.branches.set n b1 }
  | .spawn b1 child =>
    some { s with shared := sh, wg := s.wg + 1, branches := s.branches.set n b1 ++ [child] }
  | .send c b1 =>
    match s.main with
    | .recv => some { s with shared := sh, main := .hold c, branches := s.branches.set n b1 }
    | _ => none
  | .exit => some { s with shared := sh, wg := s.wg - 1, branches := s.branches.set n .returned }
  | .panic => some { s with shared := sh, crashed := true }

/-! ## Potentials of the feed fixture -/

/-- An upper bound on the steps taken from inside a page of the feed to the
end of its thread, the threads of the comments on the way included. -/
def Feed.work : Feed → Nat
  | .last => 1
  | .more next => 2 + next.work
  | .comment _ rest => 3 + rest.work
  | .thread _ replies rest => 4 + replies.work + rest.work
  | .limit _ => 2
  | .fail => 2

/-- An upper bound on the steps of a walk that is about to fetch the feed. -/
def Feed.fetchWork : Feed → Nat
  | .limit _ => 1
  | .fail => 1
  | t => 1 + t.work

/-- Steps caused by one comment of a page: visit, send, forward, and the walk
over its replies. -/
def FeedComment.work (c : FeedComment) : Nat :=
  3 + match c.replies with
      | none => 0
      | some r => r.fetchWork

/-- Steps left to a walk inside a page. -/
def rangeWork (cs : List FeedComment) (more : Bool) (tok : Feed) : Nat :=
  (cs.map FeedComment.work).sum + 1 + if more then tok.fetchWork else 0

/-- Steps left to a walk, by control point. -/
def WalkPC.work : WalkPC Feed FeedComment → Nat
  | .fetch cont _ => cont.Token.fetchWork
  | .range cont _ more cs => rangeWork cs more cont.Token
  | .send cont _ more _ cs => 2 + rangeWork cs more cont.Token

/-- Steps left to a branch of a job with sort order "top". -/
def Branch.work : Branch Feed FeedComment → Nat
  | .streamComments pc => pc.work
  | _ => 0

/-- Steps left to the caller's goroutine. -/
def Main.work : Main FeedComment → Nat
  | .recv => 1
  | .hold _ => 2
  | .returned _ => 0

/-- Steps left to the waiter. -/
def Waiter.work : Waiter → Nat
  | .absent => 0
  | .wait => 2
  | .close => 1
  | .done => 0

/-- An upper bound on the steps left to a job over the feed fixture. -/
def State.work (s : State Feed FeedComment) : Nat :=
  (s.branches.map Branch.work).sum + s.main.work + s.waiter.work

/-- The texts a comment stands for: its own and those of its replies. -/
def FeedComment.texts (c : FeedComment) : List String :=
  c.text :: match c.replies with
            | none => []
            | some r => r.texts

/-- The texts a walk inside a page has yet to bring. -/
def rangeTexts (cs : List FeedComment) (more : Bool) (tok : Feed) : List String :=
  cs.flatMap FeedComment.texts ++ if more then tok.texts else []

/-- The texts a walk has yet to bring, itself or through branches it has yet
to start. -/
def WalkPC.texts : WalkPC Feed FeedComment → Multiset String
  | .fetch cont _ => ↑cont.Token.texts
  | .range cont _ more cs => ↑(rangeTexts cs more cont.Token)
  | .send cont _ more c cs => c.text ::ₘ ↑(rangeTexts cs more cont.Token)

/-- The texts a branch has yet to bring. -/
def Branch.texts : Branch Feed FeedComment → Multiset String
  | .streamComments pc => pc.texts
  | _ => 0

/-- The text held by the caller's goroutine. -/
def Main.texts : Main FeedComment → Multiset String
  | .hold c => {c.text}
  | _ => 0

/-- Whether a branch runs the plain walk (or has returned). -/
def Branch.isWalk : Branch Feed FeedComment → Bool
  | .streamComments _ => true
  | .returned => true
  | _ => false

/-- Work on the branch side after an action, the comment handed to the
receiver counted once. -/
def Action.work : Action Feed FeedComment → Nat
  | .goto b => b.work
  | .spawn b child => b.work + child.work
  | .send _ b => b.work + 1
  | .exit => 0
  | .panic => 0

/-- Texts on the branch side after an action, the comment handed to the
receiver included. -/
def Action.texts : Action Feed FeedComment → Multiset String
  | .goto b => b.texts
  | .spawn b child => b.texts + child.texts
  | .send c b => c.text ::ₘ b.texts
  | .exit => 0
  | .panic => 0

/-- An action of a plain walk: it names plain walks only and is no panic. -/
def Action.isWalk : Action Feed FeedComment → Prop
  | .goto b => b.isWalk = true
  | .spawn b child => b.isWalk = true ∧ child.isWalk = true
  | .send _ b => b.isWalk = true
  | .exit => True
  | .panic => False

/-- What holds in every state of a job with sort order "top" over the feed
`root`: no panic, plain walks only, and every text of the feed is either
written, held by the caller, or yet to be brought by exactly one branch; the
goroutines have been started. -/
structure FeedInv (root : Feed) (s : State Feed FeedComment) : Prop where
  inv : Inv s
  alive : s.crashed = false
  walks : ∀ b ∈ s.branches, b.isWalk = true
  texts : (↑s.out : Multiset String) + s.main.texts + (s.branches.map Branch.texts).sum
    = ↑root.texts
  started : s.waiter ≠ .absent

/-! ## Schedules and fixtures used as examples -/

/-- Number of entries of a schedule that move a goroutine. -/
def effective (up : Upstream Tok Cmt Body Vid) : State Tok Cmt → List Tid → Nat
  | _, [] => 0
  | s, t :: ts =>
    match step up s t with
    | none => effective up s ts
    | some s1 => 1 + effective up s1 ts

/-- One turn for every goroutine of a job with at most `width` branches. -/
def sweep (width : Nat) : List Tid :=
  Tid.main :: Tid.waiter :: (List.range width).map Tid.branch

/-- A schedule of `rounds` sweeps. -/
def roundRobin : Nat → Nat → List Tid
  | 0, _ => []
  | rounds + 1, width => sweep width ++ roundRobin rounds width

/-- The feed of the scenario: one comment "hello" with the replies "r1", "r2". -/
def helloFeed : Feed := .thread "hello" (.comment "r1" (.comment "r2" .last)) .last

/-- A job for video "abc". -/
def jobOf (sort : String) : Job := { VideoID := "abc", SortOrder := sort, Pages := 0, Items := 0 }

/-- A feed with three levels of replies below the top-level comment. -/
def deepFeed : Feed :=
  .thread "a" (.thread "b" (.thread "c" (.comment "d" .last) .last) (.comment "e" .last))
    (.more (.comment "f" .last))

/-! ## Observing the page fetches of a run -/

/-- The arguments of the `nextCommentPage` call that the next step of a branch
makes, if it makes one. -/
def Branch.fetchArgs : Branch Tok Cmt → Option (CommentContinuation Tok × Int)
  | .streamComments (.fetch cont i) => some (cont, i)
  | .streamNewComments cont => some (cont, -1)
  | .streamLiveComments (.prime cont) => some (cont, -1)
  | .streamLiveComments (.fetch cont i) => some (cont, i)
  | _ => none

/-- The `nextCommentPage` call made by the step of goroutine `t` in state `s`,
with its result. -/
def stepFetch (up : Upstream Tok Cmt Body Vid) (s : State Tok Cmt) :
    Tid → Option (Except GoError (CommentPage Tok Cmt × CommentContinuation Tok) × Shared Tok)
  | .branch n =>
    if s.crashed then none
    else
      match s.branches[n]? with
      | none => none
      | some b =>
        match b.fetchArgs with
        | none => none
        | some (cont, i) => some (videoCommentsJob.nextCommentPage up s.shared cont i)
  | _ => none

/-- The page returned to the step of goroutine `t` in state `s`, if that step
is a successful `nextCommentPage` call. -/
def stepPage (up : Upstream Tok Cmt Body Vid) (s : State Tok Cmt) (t : Tid) :
    Option (CommentPage Tok Cmt) :=
  match stepFetch up s t with
  | some (.ok (page, _), _) => some page
  | _ => none

/-- The pages returned by the successful `nextCommentPage` calls of a run, in
the order of the calls. -/
def pagesFetched (up : Upstream Tok Cmt Body Vid) :
    State Tok Cmt → List Tid → List (CommentPage Tok Cmt)
  | _, [] => []
  | s, t :: ts => (stepPage up s t).toList ++ pagesFetched up ((step up s t).getD s) ts

/-- The counters of a job after one more page has been returned. -/
def Job.count (job : Job) (page : CommentPage Tok Cmt) : Job :=
  { job with Pages := atomicAddInt64 job.Pages 1,
             Items := atomicAddInt64 job.Items page.Comments.length }

/-- A feed of three pages with 5, 5 and 2 comments and no replies. -/
def pagedFeed : Feed :=
  .comment "c1" (.comment "c2" (.comment "c3" (.comment "c4" (.comment "c5" (.more
  (.comment "c6" (.comment "c7" (.comment "c8" (.comment "c9" (.comment "c10" (.more
  (.comment "c11" (.comment "c12" .last)))))))))))))

/-- Total number of comments of a list of pages. -/
def totalItems (pages : List (CommentPage Tok Cmt)) : Int :=
  (pages.map fun p => (p.Comments.length : Int)).sum

/-- The feed upstream with a `NewComments` pointer on every page: each parsed
page points at the feed `newest`. -/
def rebasedUpstream (root newest : Feed) (budget : Nat) :
    Upstream Feed FeedComment Feed Feed :=
  { feedUpstream root budget with
    ParseCommentsPage := fun res cont =>
      .ok (⟨res.Body.page.1, res.Body.page.2.1, some ⟨"", newest⟩, []⟩,
           { cont with Token := res.Body.page.2.2 }) }

/-- The root branch of an "age" or "live" job after its priming page. -/
def rebasedRoot (sort : String) (tokenX : CommentContinuation Tok) : Branch Tok Cmt :=
  if sort = "age" then .streamComments (.fetch tokenX 0)
  else .streamLiveComments (.fetch tokenX 0)

/-- The four ways in which the set-up of `streamComments` fails: the video
identifier is not resolved, the video is not fetched or parsed, there is no
initial continuation, the sort order is unknown. -/
def setupFails (up : Upstream Tok Cmt Body Vid) (job : Job) : Prop :=
  (∃ e, up.GetVideoID job.VideoID = .error e) ∨
  (∃ id e, up.GetVideoID job.VideoID = .ok id ∧
    (simpleGetVideo up { job := job, net := [], logs := [] } id).1 = .error e) ∨
  (∃ id vid, up.GetVideoID job.VideoID = .ok id ∧
    (simpleGetVideo up { job := job, net := [], logs := [] } id).1 = .ok vid ∧
    up.InitialCommentContinuation vid = none) ∨
  (job.SortOrder ≠ "top" ∧ job.SortOrder ≠ "age" ∧ job.SortOrder ≠ "live")

/-- A feed that is one empty page. -/
def emptyFeed : Feed := .last

/-- The states of a "live" job over the empty feed whose every page points at
the empty feed again: the root branch polls for ever. -/
def LiveLoop (s : State Feed FeedComment) : Prop :=
  s.main = .recv ∧ s.closed = false ∧ s.waiter = .wait ∧ s.wg = 1 ∧ s.crashed = false ∧
  (s.branches = [.streamLiveComments (.prime ⟨"", emptyFeed⟩)] ∨
    ∃ i, s.branches = [.streamLiveComments (.fetch ⟨"", emptyFeed⟩ i)] ∨
      s.branches = [.streamLiveComments (.range ⟨"", emptyFeed⟩ i [])])

/-! ## Feeds without failing requests -/

/-- Whether a log line is one of the page lines of `nextCommentPage`. -/
def LogEntry.isInfo : LogEntry → Bool
  | .info _ _ _ => true
  | _ => false

/-- The reply thread of the comment, if any, has no failing request. -/
def FeedComment.succeeds (c : FeedComment) : Bool :=
  match c.replies with
  | none => true
  | some r => r.succeeds

/-- Every feed that the branch still holds has no failing request. -/
def Branch.succeeds : Branch Feed FeedComment → Bool
  | .streamComments (.fetch cont _) => cont.Token.succeeds
  | .streamComments (.range cont _ _ cs) => cont.Token.succeeds && cs.all FeedComment.succeeds
  | .streamComments (.send cont _ _ _ cs) => cont.Token.succeeds && cs.all FeedComment.succeeds
  | .returned => true
  | _ => false

/-- In a run over a feed without failing requests, the branches hold such
feeds only and nothing but page lines has been logged. -/
structure OkInv (s : State Feed FeedComment) : Prop where
  branches : ∀ b ∈ s.branches, b.succeeds = true
  logs : ∀ e ∈ s.shared.logs, e.isInfo = true

/-! ## Jobs with sort order "age" and "live" over the feed fixture -/

/-- The continuation that a control point of `streamLiveComments` works on. -/
def LivePC.cont : LivePC Tok Cmt → CommentContinuation Tok
  | .prime cont => cont
  | .fetch cont _ => cont
  | .range cont _ _ => cont
  | .send cont _ _ _ => cont

/-- A Go map from `*Job` (an address) to `bool`. -/
def JobMap : Type := Nat → Option Bool

/-- Assignment `m[k] = v`. -/
def JobMap.insert (m : JobMap) (k : Nat) (v : Bool) : JobMap :=
  fun x => if x = k then some v else m x

/-- Call `delete(m, k)`. -/
def JobMap.delete (m : JobMap) (k : Nat) : JobMap :=
  fun x => if x = k then none else m x

/-- The goroutine started by `startWorker` (worker.go:24-33) for the job at
address `job`: inside `streamComments`, or finished after `streamComments`
returned `err`. -/
inductive Worker where
  | streaming (job : Nat)
  | finished (job : Nat) (err : Option GoError)
  deriving DecidableEq, Repr

/-- The job a worker goroutine was started for. -/
def Worker.job : Worker → Nat
  | .streaming job => job
  | .finished job _ => job

/-- Modelled from the spec: the `Scheduler` struct is declared outside
`worker.go`; `startWorker` uses its mutex `jobLock` and its map `jobs` of the
"currently-streaming jobs ... guarded by a single mutex".  The sections under
the mutex are atomic steps here.  `workers` are the goroutines `startWorker`
has started, `logs` is what they logged. -/
structure Scheduler where
  jobs : JobMap
  workers : List Worker
  logs : List LogEntry

/-- Method `Scheduler.startWorker` (worker.go:19-34): lines 20-22 insert the
job, line 24 starts the goroutine. -/
def Scheduler.startWorker (s : Scheduler) (job : Nat) : Scheduler :=
  let s1 : Scheduler := { s with jobs := s.jobs.insert job true }
  { s1 with workers := s1.workers ++ [.streaming job] }

/-- Lines 25-32, run by worker `k` once its `streamComments` has returned
`err`: log the error if there is one, then delete the job. -/
def Scheduler.workerReturns (s : Scheduler) (k : Nat) (err : Option GoError) :
    Option Scheduler :=
  match s.workers[k]? with
  | some (.streaming job) =>
    let logs :=
      match err with
      | none => s.logs
      | some e => s.logs ++ [.error "Failed to stream comments of video" e]
    some { jobs := s.jobs.delete job, workers := s.workers.set k (.finished job err),
           logs := logs }
  | _ => none

/-- What happens to a scheduler: a call of `startWorker`, or the stream of
worker `k` returning. -/
inductive SchedEvent where
  | start (job : Nat)
  | returns (k : Nat) (err : Option GoError)
  deriving DecidableEq, Repr

/-- One event; the return of a worker that is not streaming is no event. -/
def Scheduler.apply (s : Scheduler) : SchedEvent → Scheduler
  | .start job => s.startWorker job
  | .returns k err => (s.workerReturns k err).getD s

/-- A sequence of events. -/
def Scheduler.run (s : Scheduler) (evs : List SchedEvent) : Scheduler :=
  evs.foldl Scheduler.apply s

theorem sum_map_set {α M : Type} [AddCommMonoid M] (f : α → M) :
    ∀ (l : List α) (n : Nat) (a b : α), l[n]? = some a →
      ((l.set n b).map f).sum + f a = (l.map f).sum + f b
  | [], n, a, b, h => by simp at h
  | x :: l, 0, a, b, h => by
    simp at h
    subst h
    simp [List.set, add_comm, add_left_comm]
  | x :: l, n + 1, a, b, h => by
    simp at h
    have ih := sum_map_set f l n a b h
    simp only [List.set, List.map_cons, List.sum_cons]
    rw [add_assoc, ih, add_assoc]

theorem act_isLive {up : Upstream Tok Cmt Body Vid} {sh : Shared Tok} {b : Branch Tok Cmt}
    {r : Action Tok Cmt × Shared Tok} (h : b.act up sh = some r) : b.isLive = true := by
  cases b <;> simp [Branch.act, Branch.isLive] at h ⊢

theorem liveCount_set {bs : List (Branch Tok Cmt)} {n : Nat} {a b : Branch Tok Cmt}
    (h : bs[n]? = some a) (ha : a.isLive = true) :
    liveCount (bs.set n b) + 1 = liveCount bs + (if b.isLive then 1 else 0) := by
  have := sum_map_set (fun b : Branch Tok Cmt => if b.isLive then 1 else 0) bs n a b h
  simpa [liveCount, ha] using this

theorem liveCount_append (bs cs : List (Branch Tok Cmt)) :
    liveCount (bs ++ cs) = liveCount bs + liveCount cs := by
  simp [liveCount]

theorem liveCount_eq_zero {bs : List (Branch Tok Cmt)} :
    liveCount bs = 0 ↔ ∀ b ∈ bs, b = Branch.returned := by
  induction bs with
  | nil => simp [liveCount]
  | cons b bs ih =>
    have : liveCount (b :: bs) = (if b.isLive then 1 else 0) + liveCount bs := by
      simp [liveCount]
    rw [this]
    cases b <;> simp [Branch.isLive, ih]

theorem liveCount_pos {bs : List (Branch Tok Cmt)} {n : Nat} {a : Branch Tok Cmt}
    (h : bs[n]? = some a) (ha : a.isLive = true) : 0 < liveCount bs := by
  have := liveCount_set (b := Branch.returned) h ha
  simp [Branch.isLive] at this
  omega

theorem inv_stepMain {up : Upstream Tok Cmt Body Vid} {s s1 : State Tok Cmt}
    (h : Inv s) (hs : stepMain up s = some s1) : Inv s1 := by
  unfold stepMain at hs
  split at hs
  · split at hs
    · rename_i hm hc
      cases hs
      have hw : s.waiter ≠ .absent := by
        intro hw
        have := (h.absent hw).2.2.1
        simp [this] at hc
      exact ⟨h.wg_eq, fun hw' => absurd hw' hw, fun _ e => by simp, h.close, h.wait, h.done,
        fun _ => hc⟩
    · simp at hs
  · rename_i c hm
    have hw : s.waiter ≠ .absent := by
      intro hw
      obtain ⟨e, he⟩ := (h.absent hw).2.2.2
      simp [he] at hm
    split at hs
    · cases hs
      exact ⟨h.wg_eq, fun hw' => absurd hw' hw, fun _ e => by simp [State.crash, hm],
        h.close, h.wait, h.done, fun hn => by simp [State.crash, hm] at hn⟩
    · cases hs
      exact ⟨h.wg_eq, fun hw' => absurd hw' hw, fun _ e => by simp, h.close, h.wait, h.done,
        fun hn => by simp at hn⟩
  · simp at hs

theorem inv_stepWaiter {s s1 : State Tok Cmt}
    (h : Inv s) (hs : stepWaiter s = some s1) : Inv s1 := by
  unfold stepWaiter at hs
  split at hs
  · simp at hs
  · rename_i hw
    split at hs
    · rename_i h0
      cases hs
      refine ⟨h.wg_eq, by simp, fun _ => h.started (by simp [hw]), fun _ => ⟨h0, h.wait hw⟩,
        by simp, by simp, h.mainNil⟩
    · simp at hs
  · rename_i hw
    have hc := (h.close hw).2
    simp [hc] at hs
    cases hs
    refine ⟨h.wg_eq, by simp, fun _ => h.started (by simp [hw]), by simp, by simp,
      fun _ => ⟨rfl, (h.close hw).1⟩, fun _ => rfl⟩
  · simp at hs

theorem act_targetsLive {up : Upstream Tok Cmt Body Vid} {sh : Shared Tok} {b : Branch Tok Cmt}
    {r : Action Tok Cmt × Shared Tok} (h : b.act up sh = some r) : r.1.targetsLive := by
  cases b with
  | returned => simp [Branch.act] at h
  | streamComments pc =>
    simp only [Branch.act, Option.some.injEq] at h
    subst h
    cases pc with
    | fetch cont i =>
      simp only [videoCommentsJob.streamComments]
      split <;> simp [Action.targetsLive, Branch.isLive]
    | range cont i more cs =>
      cases cs with
      | nil =>
        simp only [videoCommentsJob.streamComments]
        split <;> simp [Action.targetsLive, Branch.isLive]
      | cons c cs =>
        simp only [videoCommentsJob.streamComments]
        split <;> simp [Action.targetsLive, Branch.isLive]
    | send cont i more c cs =>
      simp [videoCommentsJob.streamComments, Action.targetsLive, Branch.isLive]
  | streamNewComments cont =>
    simp only [Branch.act, Option.some.injEq] at h
    subst h
    simp only [videoCommentsJob.streamNewComments]
    split
    · simp [Action.targetsLive]
    · split <;> simp [Action.targetsLive, Branch.isLive]
  | streamLiveComments pc =>
    simp only [Branch.act, Option.some.injEq] at h
    subst h
    cases pc with
    | prime cont =>
      simp only [videoCommentsJob.streamLiveComments]
      split
      · simp [Action.targetsLive]
      · split <;> simp [Action.targetsLive, Branch.isLive]
    | fetch cont i =>
      simp only [videoCommentsJob.streamLiveComments]
      split
      · simp [Action.targetsLive]
      · split <;> simp [Action.targetsLive, Branch.isLive]
    | range cont i cs =>
      cases cs with
      | nil => simp [videoCommentsJob.streamLiveComments, Action.targetsLive, Branch.isLive]
      | cons c cs =>
        simp only [videoCommentsJob.streamLiveComments]
        split <;> simp [Action.targetsLive, Branch.isLive]
    | send cont i c cs =>
      simp [videoCommentsJob.streamLiveComments, Action.targetsLive, Branch.isLive]

theorem inv_stepBranch {up : Upstream Tok Cmt Body Vid} {s s1 : State Tok Cmt} {n : Nat}
    (h : Inv s) (hs : stepBranch up s n = some s1) : Inv s1 := by
  unfold stepBranch at hs
  split at hs
  · simp at hs
  · rename_i b hb
    have hw : s.waiter ≠ .absent := by
      intro hw
      have := (h.absent hw).1
      simp [this] at hb
    have hpos : 0 < s.wg := by
      cases hact : b.act up s.shared with
      | none => simp [hact] at hs
      | some r => rw [h.wg_eq]; exact liveCount_pos hb (act_isLive hact)
    have hwait : s.waiter = .wait := by
      cases hwt : s.waiter with
      | absent => exact absurd hwt hw
      | wait => rfl
      | close => have := (h.close hwt).1; omega
      | done => have := (h.done hwt).2; omega
    have hopen : s.closed = false := h.wait hwait
    split at hs
    · simp at hs
    · rename_i b1 sh hact
      cases hs
      have hl := liveCount_set (b := b1) hb (act_isLive hact)
      have ht : b1.isLive = true := act_targetsLive hact
      refine ⟨?_, fun hw' => absurd hw' hw, fun _ => h.started hw, ?_, fun _ => hopen, ?_,
        h.mainNil⟩
      · simp only [ht, if_true] at hl
        have := h.wg_eq
        simp only
        omega
      · intro hc; simp [hwait] at hc
      · intro hc; simp [hwait] at hc
    · rename_i b1 child sh hact
      cases hs
      have hl := liveCount_set (b := b1) hb (act_isLive hact)
      have ht : b1.isLive = true ∧ child.isLive = true := act_targetsLive hact
      refine ⟨?_, fun hw' => absurd hw' hw, fun _ => h.started hw, ?_, fun _ => hopen, ?_,
        h.mainNil⟩
      · simp only [ht.1, if_true] at hl
        have := h.wg_eq
        simp only [liveCount_append]
        have hc : liveCount [child] = 1 := by simp [liveCount, ht.2]
        omega
      · intro hc; simp [hwait] at hc
      · intro hc; simp [hwait] at hc
    · rename_i c b1 sh hact
      simp only [hopen, Bool.false_eq_true, if_false] at hs
      split at hs
      · rename_i hm
        cases hs
        have hl := liveCount_set (b := b1) hb (act_isLive hact)
        have ht : b1.isLive = true := act_targetsLive hact
        refine ⟨?_, fun hw' => absurd hw' hw, fun _ e => by simp, ?_, fun _ => rfl, ?_,
          fun hn => by simp at hn⟩
        · simp only [ht, if_true] at hl
          have := h.wg_eq
          simp only
          omega
        · intro hc; simp [hwait] at hc
        · intro hc; simp [hwait] at hc
      · simp at hs
    · rename_i sh hact
      have h0 : ¬ s.wg = 0 := by omega
      simp only [h0, if_false] at hs
      cases hs
      have hl := liveCount_set (b := Branch.returned) hb (act_isLive hact)
      refine ⟨?_, fun hw' => absurd hw' hw, fun _ => h.started hw, ?_, fun _ => hopen, ?_,
        h.mainNil⟩
      · simp only [Branch.isLive, Bool.false_eq_true, if_false] at hl
        have := h.wg_eq
        simp only
        omega
      · intro hc; simp [hwait] at hc
      · intro hc; simp [hwait] at hc
    · rename_i sh hact
      cases hs
      exact ⟨h.wg_eq, h.absent, h.started, h.close, h.wait, h.done, h.mainNil⟩

theorem inv_step {up : Upstream Tok Cmt Body Vid} {s s1 : State Tok Cmt} {t : Tid}
    (h : Inv s) (hs : step up s t = some s1) : Inv s1 := by
  unfold step at hs
  split at hs
  · simp at hs
  · cases t with
    | main => exact inv_stepMain h hs
    | waiter => exact inv_stepWaiter h hs
    | branch n => exact inv_stepBranch h hs

theorem inv_exec {up : Upstream Tok Cmt Body Vid} (sched : List Tid) :
    ∀ {s : State Tok Cmt}, Inv s → Inv (exec up s sched) := by
  induction sched with
  | nil => intro s h; exact h
  | cons t ts ih =>
    intro s h
    simp only [exec]
    apply ih
    cases hs : step up s t with
    | none => simpa using h
    | some s1 => simpa using inv_step h hs

theorem inv_failed (sh : Shared Tok) (err : GoError) : Inv (failed sh err : State Tok Cmt) :=
  ⟨by simp [failed, liveCount], fun _ => ⟨rfl, rfl, rfl, err, rfl⟩, fun h => absurd rfl h,
    by simp [failed], by simp [failed], by simp [failed], by simp [failed]⟩

theorem inv_launched (sh : Shared Tok) (root : Branch Tok Cmt) (hr : root.isLive = true) :
    Inv (launched sh root) :=
  ⟨by simp [launched, liveCount, hr], by simp [launched], fun _ e => by simp [launched],
    by simp [launched], by simp [launched], by simp [launched], by simp [launched]⟩

theorem inv_streamComments (up : Upstream Tok Cmt Body Vid) (job : Job) :
    Inv (streamComments up job) := by
  unfold streamComments
  simp only
  split
  · exact inv_failed _ _
  · split
    · exact inv_failed _ _
    · split
      · exact inv_failed _ _
      · split
        · exact inv_launched _ _ rfl
        · split
          · exact inv_launched _ _ rfl
          · split
            · exact inv_launched _ _ rfl
            · exact inv_failed _ _

theorem inv_reachable (up : Upstream Tok Cmt Body Vid) (job : Job) (sched : List Tid) :
    Inv (exec up (streamComments up job) sched) :=
  inv_exec sched (inv_streamComments up job)

theorem live_branch_open {s : State Tok Cmt} {n : Nat} {b : Branch Tok Cmt}
    (h : Inv s) (hb : s.branches[n]? = some b) (hl : b.isLive = true) :
    s.closed = false ∧ s.wg ≠ 0 ∧ s.waiter = .wait := by
  have hpos : 0 < s.wg := by rw [h.wg_eq]; exact liveCount_pos hb hl
  have hwait : s.waiter = .wait := by
    cases hwt : s.waiter with
    | absent => have := (h.absent hwt).1; simp [this] at hb
    | wait => rfl
    | close => have := (h.close hwt).1; omega
    | done => have := (h.done hwt).2; omega
  exact ⟨h.wait hwait, by omega, hwait⟩

theorem stepBranch_eq {up : Upstream Tok Cmt Body Vid} {s : State Tok Cmt} {n : Nat}
    {b : Branch Tok Cmt} {a : Action Tok Cmt} {sh : Shared Tok}
    (h : Inv s) (hb : s.branches[n]? = some b) (hact : b.act up s.shared = some (a, sh)) :
    stepBranch up s n = applyAction s n sh a := by
  obtain ⟨hopen, hwg, _⟩ := live_branch_open h hb (act_isLive hact)
  unfold stepBranch
  simp only [hb, hact]
  cases a <;> simp [applyAction, hopen, hwg]

theorem stepBranch_some {up : Upstream Tok Cmt Body Vid} {s s1 : State Tok Cmt} {n : Nat}
    (hs : stepBranch up s n = some s1) :
    ∃ b a sh, s.branches[n]? = some b ∧ b.act up s.shared = some (a, sh) := by
  unfold stepBranch at hs
  split at hs
  · simp at hs
  · rename_i b hb
    cases hact : b.act up s.shared with
    | none => simp [hact] at hs
    | some r => exact ⟨b, r.1, r.2, hb, hact⟩

theorem exists_live : ∀ {bs : List (Branch Tok Cmt)}, 0 < liveCount bs →
    ∃ (n : Nat) (b : Branch Tok Cmt), bs[n]? = some b ∧ b.isLive = true
  | [], h => by simp [liveCount] at h
  | b :: bs, h => by
    cases hb : b.isLive with
    | true => exact ⟨0, b, by simp, hb⟩
    | false =>
      have h1 : 0 < liveCount bs := by simpa [liveCount, hb] using h
      obtain ⟨n, c, hn, hc⟩ := exists_live h1
      exact ⟨n + 1, c, by simpa using hn, hc⟩

theorem act_of_isLive (up : Upstream Tok Cmt Body Vid) (sh : Shared Tok) {b : Branch Tok Cmt}
    (h : b.isLive = true) : ∃ a sh1, b.act up sh = some (a, sh1) := by
  cases b with
  | returned => simp [Branch.isLive] at h
  | _ => exact ⟨_, _, rfl⟩

/-- No deadlock: while the process is alive and the caller has not returned,
some goroutine can move. -/
theorem progress (up : Upstream Tok Cmt Body Vid) {s : State Tok Cmt} (h : Inv s)
    (hc : s.crashed = false) (hm : ∀ r, s.main ≠ .returned r) :
    ∃ t s1, step up s t = some s1 := by
  have hw : s.waiter ≠ .absent := by
    intro hw
    obtain ⟨e, he⟩ := (h.absent hw).2.2.2
    exact hm _ he
  cases hmain : s.main with
  | returned r => exact absurd hmain (hm r)
  | hold c =>
    refine ⟨.main, ?_⟩
    simp only [step, hc, Bool.false_eq_true, if_false, stepMain, hmain]
    cases up.Marshal c <;> simp
  | recv =>
    cases hcl : s.closed with
    | true =>
      refine ⟨.main, ?_⟩
      simp [step, hc, stepMain, hmain, hcl]
    | false =>
      cases hwt : s.waiter with
      | absent => exact absurd hwt hw
      | done => have := (h.done hwt).1; simp [hcl] at this
      | close =>
        refine ⟨.waiter, ?_⟩
        simp [step, hc, stepWaiter, hwt, hcl]
      | wait =>
        by_cases h0 : s.wg = 0
        · refine ⟨.waiter, ?_⟩
          simp [step, hc, stepWaiter, hwt, h0]
        · have hpos : 0 < liveCount s.branches := by rw [← h.wg_eq]; omega
          obtain ⟨n, b, hb, hl⟩ := exists_live hpos
          obtain ⟨a, sh1, hact⟩ := act_of_isLive up s.shared hl
          refine ⟨.branch n, ?_⟩
          simp only [step, hc, Bool.false_eq_true, if_false, stepBranch_eq h hb hact]
          cases a <;> simp [applyAction, hmain]

/-! ### The feed fixture, one branch step -/

theorem Retry_ok {σ : Type} {op : σ → Attempt Body × σ} {s : σ} (s1 : σ) (res : Response Body)
    (h : op s = (.ok res, s1)) (budget : Nat) : Retry op budget s = (.ok res, s1) := by
  cases budget <;> simp [Retry, h]

theorem Retry_permanent {σ : Type} {op : σ → Attempt Body × σ} {s : σ} (s1 : σ) (err : GoError)
    (h : op s = (.permanent err, s1)) (budget : Nat) :
    Retry op budget s = (.error err, s1) := by
  cases budget <;> simp [Retry, h]

theorem Feed.texts_page (t : Feed) : t.texts = rangeTexts t.page.1 t.page.2.1 t.page.2.2 := by
  induction t with
  | last => simp [Feed.texts, Feed.page, rangeTexts]
  | more next _ => simp [Feed.texts, Feed.page, rangeTexts]
  | comment text rest ih =>
    simp only [Feed.texts, Feed.page, ih, rangeTexts]
    simp [FeedComment.texts]
  | thread text replies rest _ ih =>
    simp only [Feed.texts, Feed.page, ih, rangeTexts]
    simp [FeedComment.texts]
  | limit uri => simp [Feed.texts, Feed.page, rangeTexts]
  | fail => simp [Feed.texts, Feed.page, rangeTexts]

theorem Feed.fetchWork_le (t : Feed) : t.fetchWork ≤ 1 + t.work := by
  cases t <;> simp [Feed.fetchWork, Feed.work]

theorem Feed.work_page (t : Feed) : rangeWork t.page.1 t.page.2.1 t.page.2.2 ≤ t.work := by
  induction t with
  | last => simp [Feed.work, Feed.page, rangeWork]
  | more next _ =>
    have := Feed.fetchWork_le next
    simp [Feed.work, Feed.page, rangeWork]
    omega
  | comment text rest ih =>
    simp only [Feed.work, Feed.page, rangeWork] at ih ⊢
    simp [FeedComment.work]
    omega
  | thread text replies rest _ ih =>
    have := Feed.fetchWork_le replies
    simp only [Feed.work, Feed.page, rangeWork] at ih ⊢
    simp [FeedComment.work]
    omega
  | limit uri => simp [Feed.work, Feed.page, rangeWork, Feed.fetchWork]
  | fail => simp [Feed.work, Feed.page, rangeWork, Feed.fetchWork]


theorem feed_nextCommentPage (root : Feed) (budget : Nat) (sh : Shared Feed)
    (cont : CommentContinuation Feed) (i : Int) :
    (videoCommentsJob.nextCommentPage (feedUpstream root budget) sh cont i).1 =
      match cont.Token with
      | .limit _ => .error .continuationLimitReached
      | .fail => .error (.other "connection reset")
      | t => .ok (⟨t.page.1, t.page.2.1, none, []⟩, { cont with Token := t.page.2.2 }) := by
  unfold videoCommentsJob.nextCommentPage
  cases htok : cont.Token with
  | limit uri =>
    rw [Retry_ok { sh with net := sh.net ++ [.commentPage cont] }
      ⟨if uri then StatusRequestURITooLong else StatusRequestEntityTooLarge,
      cont.Token⟩]
    · cases uri <;> simp
    · simp [doRequest, feedUpstream, htok]
  | fail =>
    rw [Retry_permanent { sh with net := sh.net ++ [.commentPage cont] }
      (.other "connection reset")]
    simp [doRequest, feedUpstream, htok]
  | last =>
    rw [Retry_ok { sh with net := sh.net ++ [.commentPage cont] }
      ⟨200, cont.Token⟩]
    · simp [feedUpstream, htok, StatusRequestEntityTooLarge, StatusRequestURITooLong]
    · simp [doRequest, feedUpstream, htok]
  | more next =>
    rw [Retry_ok { sh with net := sh.net ++ [.commentPage cont] }
      ⟨200, cont.Token⟩]
    · simp [feedUpstream, htok, StatusRequestEntityTooLarge, StatusRequestURITooLong]
    · simp [doRequest, feedUpstream, htok]
  | comment text rest =>
    rw [Retry_ok { sh with net := sh.net ++ [.commentPage cont] }
      ⟨200, cont.Token⟩]
    · simp [feedUpstream, htok, StatusRequestEntityTooLarge, StatusRequestURITooLong]
    · simp [doRequest, feedUpstream, htok]
  | thread text replies rest =>
    rw [Retry_ok { sh with net := sh.net ++ [.commentPage cont] }
      ⟨200, cont.Token⟩]
    · simp [feedUpstream, htok, StatusRequestEntityTooLarge, StatusRequestURITooLong]
    · simp [doRequest, feedUpstream, htok]


theorem feed_walk_fetch (root : Feed) (budget : Nat) (sh : Shared Feed)
    (cont : CommentContinuation Feed) (i : Int) :
    (videoCommentsJob.streamComments (feedUpstream root budget) sh (.fetch cont i)).1 =
      match cont.Token with
      | .limit _ => .exit
      | .fail => .exit
      | t => .goto (.streamComments
          (.range { cont with Token := t.page.2.2 } i t.page.2.1 t.page.1)) := by
  have h := feed_nextCommentPage root budget sh cont i
  simp only [videoCommentsJob.streamComments]
  generalize videoCommentsJob.nextCommentPage (feedUpstream root budget) sh cont i = r at h
  obtain ⟨r1, r2⟩ := r
  simp only at h
  subst h
  cases cont.Token <;> rfl

theorem feed_walk_action (root : Feed) (budget : Nat) (sh : Shared Feed)
    (pc : WalkPC Feed FeedComment) :
    let a := (videoCommentsJob.streamComments (feedUpstream root budget) sh pc).1
    a.isWalk ∧ a.work < pc.work ∧ a.texts = pc.texts := by
  cases pc with
  | fetch cont i =>
    simp only [feed_walk_fetch]
    have hw := Feed.work_page cont.Token
    have ht := Feed.texts_page cont.Token
    cases htok : cont.Token with
    | limit uri =>
      simp [Action.isWalk, Action.work, Action.texts, WalkPC.work, WalkPC.texts, Feed.fetchWork,
        Feed.texts, htok]
    | fail =>
      simp [Action.isWalk, Action.work, Action.texts, WalkPC.work, WalkPC.texts, Feed.fetchWork,
        Feed.texts, htok]
    | last =>
      rw [htok] at hw ht
      simp only [Action.isWalk, Action.work, Action.texts, Branch.isWalk, Branch.work,
        Branch.texts, WalkPC.work, WalkPC.texts, Feed.fetchWork, htok, ht]
      exact ⟨trivial, by omega, trivial⟩
    | more next =>
      rw [htok] at hw ht
      simp only [Action.isWalk, Action.work, Action.texts, Branch.isWalk, Branch.work,
        Branch.texts, WalkPC.work, WalkPC.texts, Feed.fetchWork, htok, ht]
      exact ⟨trivial, by omega, trivial⟩
    | comment text rest =>
      rw [htok] at hw ht
      simp only [Action.isWalk, Action.work, Action.texts, Branch.isWalk, Branch.work,
        Branch.texts, WalkPC.work, WalkPC.texts, Feed.fetchWork, htok, ht]
      exact ⟨trivial, by omega, trivial⟩
    | thread text replies rest =>
      rw [htok] at hw ht
      simp only [Action.isWalk, Action.work, Action.texts, Branch.isWalk, Branch.work,
        Branch.texts, WalkPC.work, WalkPC.texts, Feed.fetchWork, htok, ht]
      exact ⟨trivial, by omega, trivial⟩
  | range cont i more cs =>
    cases cs with
    | nil =>
      cases more <;>
        simp [videoCommentsJob.streamComments, Action.isWalk, Action.work, Action.texts,
          Branch.isWalk, Branch.work, Branch.texts, WalkPC.work, WalkPC.texts, rangeWork,
          rangeTexts]
    | cons c cs =>
      simp only [videoCommentsJob.streamComments]
      cases hr : c.replies with
      | none =>
        simp [feedUpstream, hr, Action.isWalk, Action.work, Action.texts,
          Branch.isWalk, Branch.work, Branch.texts, WalkPC.work, WalkPC.texts, rangeWork,
          rangeTexts, FeedComment.work, FeedComment.texts]
        omega
      | some r =>
        simp [feedUpstream, hr, Action.isWalk, Action.work, Action.texts,
          Branch.isWalk, Branch.work, Branch.texts, WalkPC.work, WalkPC.texts, rangeWork,
          rangeTexts, FeedComment.work, FeedComment.texts]
        refine ⟨by omega, ?_⟩
        rw [← List.append_assoc]
        exact List.perm_append_comm
  | send cont i more c cs =>
    simp [videoCommentsJob.streamComments, Action.isWalk, Action.work, Action.texts,
      Branch.isWalk, Branch.work, Branch.texts, WalkPC.work, WalkPC.texts]
    omega

/-! ### The feed fixture, the whole job -/

theorem walks_set {bs : List (Branch Feed FeedComment)} {n : Nat} {b1 : Branch Feed FeedComment}
    (h : ∀ b ∈ bs, b.isWalk = true) (h1 : b1.isWalk = true) :
    ∀ b ∈ bs.set n b1, b.isWalk = true := by
  intro b hb
  rcases List.mem_or_eq_of_mem_set hb with hb | hb
  · exact h b hb
  · rw [hb]; exact h1

theorem feedInv_stepBranch {root : Feed} {budget : Nat} {s s1 : State Feed FeedComment} {n : Nat}
    (h : FeedInv root s) (hs : stepBranch (feedUpstream root budget) s n = some s1) :
    FeedInv root s1 ∧ s1.work < s.work := by
  have hinv1 : Inv s1 := inv_stepBranch h.inv hs
  obtain ⟨b, a, sh, hb, hact⟩ := stepBranch_some hs
  rw [stepBranch_eq h.inv hb hact] at hs
  have hbw := h.walks b (List.getElem?_mem hb)
  cases b with
  | returned => simp [Branch.act] at hact
  | streamNewComments cont => simp [Branch.isWalk] at hbw
  | streamLiveComments pc => simp [Branch.isWalk] at hbw
  | streamComments pc =>
    simp only [Branch.act, Option.some.injEq] at hact
    have hloc := feed_walk_action root budget s.shared pc
    rw [hact] at hloc
    simp only at hloc
    obtain ⟨haw, hawork, hatexts⟩ := hloc
    have hsumw := fun b1 => sum_map_set Branch.work s.branches n _ b1 hb
    have hsumt := fun b1 => sum_map_set Branch.texts s.branches n _ b1 hb
    have hwb : Branch.work (.streamComments pc) = pc.work := rfl
    have htb : Branch.texts (.streamComments pc) = pc.texts := rfl
    rw [hwb] at hsumw
    rw [htb] at hsumt
    have htx := h.texts
    cases a with
    | goto b1 =>
      simp only [applyAction, Option.some.injEq] at hs
      subst hs
      simp only [Action.isWalk, Action.work, Action.texts] at haw hawork hatexts
      have e1 : (List.map Branch.texts (s.branches.set n b1)).sum
          = (List.map Branch.texts s.branches).sum := by
        have := hsumt b1
        rw [hatexts] at this
        exact add_right_cancel this
      refine ⟨⟨hinv1, h.alive, walks_set h.walks haw, ?_, h.started⟩, ?_⟩
      · simp only [e1]; exact htx
      · have := hsumw b1
        simp only [State.work]
        omega
    | spawn b1 child =>
      simp only [applyAction, Option.some.injEq] at hs
      subst hs
      simp only [Action.isWalk, Action.work, Action.texts] at haw hawork hatexts
      have e1 : (List.map Branch.texts (s.branches.set n b1 ++ [child])).sum
          = (List.map Branch.texts s.branches).sum := by
        have := hsumt b1
        rw [← hatexts] at this
        simp only [List.map_append, List.sum_append, List.map_cons, List.map_nil,
          List.sum_cons, List.sum_nil, add_zero]
        apply add_right_cancel (b := b1.texts)
        rw [← this]
        abel
      refine ⟨⟨hinv1, h.alive, ?_, ?_, h.started⟩, ?_⟩
      · intro b hb'
        rcases List.mem_append.mp hb' with hb' | hb'
        · exact walks_set h.walks haw.1 b hb'
        · simp at hb'; rw [hb']; exact haw.2
      · simp only [e1]; exact htx
      · have := hsumw b1
        simp only [State.work, List.map_append, List.sum_append, List.map_cons, List.map_nil,
          List.sum_cons, List.sum_nil]
        omega
    | send c b1 =>
      simp only [applyAction] at hs
      split at hs
      · rename_i hm
        simp only [Option.some.injEq] at hs
        subst hs
        simp only [Action.isWalk, Action.work, Action.texts] at haw hawork hatexts
        have e1 : (List.map Branch.texts (s.branches.set n b1)).sum + {c.text}
            = (List.map Branch.texts s.branches).sum := by
          have := hsumt b1
          rw [← hatexts] at this
          apply add_right_cancel (b := b1.texts)
          rw [← this, ← Multiset.singleton_add]
          abel
        refine ⟨⟨hinv1, h.alive, walks_set h.walks haw, ?_, h.started⟩, ?_⟩
        · simp only [Main.texts]
          rw [hm] at htx
          simp only [Main.texts, add_zero] at htx
          rw [← htx, ← e1]
          abel
        · have := hsumw b1
          simp only [State.work, Main.work, hm]
          omega
      · simp at hs
    | exit =>
      simp only [applyAction, Option.some.injEq] at hs
      subst hs
      simp only [Action.isWalk, Action.work, Action.texts] at haw hawork hatexts
      have e1 : (List.map Branch.texts (s.branches.set n .returned)).sum
          = (List.map Branch.texts s.branches).sum := by
        have := hsumt .returned
        rw [← hatexts] at this
        simpa [Branch.texts] using this
      refine ⟨⟨hinv1, h.alive, walks_set h.walks rfl, ?_, h.started⟩, ?_⟩
      · simp only [e1]; exact htx
      · have := hsumw .returned
        simp only [State.work, Branch.work] at this ⊢
        omega
    | panic => simp [Action.isWalk] at haw

theorem feedInv_stepMain {root : Feed} {budget : Nat} {s s1 : State Feed FeedComment}
    (h : FeedInv root s) (hs : stepMain (feedUpstream root budget) s = some s1) :
    FeedInv root s1 ∧ s1.work < s.work := by
  have hinv1 : Inv s1 := inv_stepMain h.inv hs
  have htx := h.texts
  unfold stepMain at hs
  split at hs
  · rename_i hm
    split at hs
    · cases hs
      refine ⟨⟨hinv1, h.alive, h.walks, ?_, h.started⟩, ?_⟩
      · rw [hm] at htx
        simpa [Main.texts] using htx
      · simp [State.work, Main.work, hm]
    · simp at hs
  · rename_i c hm
    simp only [feedUpstream] at hs
    cases hs
    refine ⟨⟨hinv1, h.alive, h.walks, ?_, h.started⟩, ?_⟩
    · rw [hm] at htx
      simp only [Main.texts, add_zero] at htx ⊢
      rw [← htx, ← Multiset.coe_add, ← Multiset.coe_singleton]
    · simp [State.work, Main.work, hm]
  · simp at hs

theorem feedInv_stepWaiter {root : Feed} {s s1 : State Feed FeedComment}
    (h : FeedInv root s) (hs : stepWaiter s = some s1) :
    FeedInv root s1 ∧ s1.work < s.work := by
  have hinv1 : Inv s1 := inv_stepWaiter h.inv hs
  unfold stepWaiter at hs
  split at hs
  · simp at hs
  · rename_i hw
    split at hs
    · cases hs
      exact ⟨⟨hinv1, h.alive, h.walks, h.texts, by simp⟩, by simp [State.work, Waiter.work, hw]⟩
    · simp at hs
  · rename_i hw
    have hc := (h.inv.close hw).2
    simp only [hc, Bool.false_eq_true, if_false, Option.some.injEq] at hs
    cases hs
    exact ⟨⟨hinv1, h.alive, h.walks, h.texts, by simp⟩, by simp [State.work, Waiter.work, hw]⟩
  · simp at hs

theorem feedInv_step {root : Feed} {budget : Nat} {s s1 : State Feed FeedComment} {t : Tid}
    (h : FeedInv root s) (hs : step (feedUpstream root budget) s t = some s1) :
    FeedInv root s1 ∧ s1.work < s.work := by
  unfold step at hs
  split at hs
  · simp at hs
  · cases t with
    | main => exact feedInv_stepMain h hs
    | waiter => exact feedInv_stepWaiter h hs
    | branch n => exact feedInv_stepBranch h hs

theorem feedInv_exec {root : Feed} (budget : Nat) (sched : List Tid) :
    ∀ {s : State Feed FeedComment}, FeedInv root s →
      FeedInv root (exec (feedUpstream root budget) s sched) := by
  induction sched with
  | nil => intro s h; exact h
  | cons t ts ih =>
    intro s h
    simp only [exec]
    apply ih
    cases hs : step (feedUpstream root budget) s t with
    | none => simpa using h
    | some s1 => simpa using (feedInv_step h hs).1


theorem feed_completes {root : Feed} {budget : Nat} :
    ∀ (w : Nat) {s : State Feed FeedComment}, s.work ≤ w → FeedInv root s →
      ∃ ext, (exec (feedUpstream root budget) s ext).main = .returned none := by
  intro w
  induction w with
  | zero =>
    intro s hw h
    cases hm : s.main with
    | returned r =>
      cases r with
      | none => exact ⟨[], hm⟩
      | some e => exact absurd hm (h.inv.started h.started e)
    | recv => simp [State.work, Main.work, hm] at hw
    | hold c => simp [State.work, Main.work, hm] at hw
  | succ w ih =>
    intro s hw h
    cases hm : s.main with
    | returned r =>
      cases r with
      | none => exact ⟨[], hm⟩
      | some e => exact absurd hm (h.inv.started h.started e)
    | recv =>
      obtain ⟨t, s1, hs⟩ := progress (feedUpstream root budget) h.inv h.alive
        (by intro r; simp [hm])
      obtain ⟨h1, hlt⟩ := feedInv_step h hs
      obtain ⟨ext, hext⟩ := ih (s := s1) (by omega) h1
      exact ⟨t :: ext, by simpa [exec, hs] using hext⟩
    | hold c =>
      obtain ⟨t, s1, hs⟩ := progress (feedUpstream root budget) h.inv h.alive
        (by intro r; simp [hm])
      obtain ⟨h1, hlt⟩ := feedInv_step h hs
      obtain ⟨ext, hext⟩ := ih (s := s1) (by omega) h1
      exact ⟨t :: ext, by simpa [exec, hs] using hext⟩

theorem sum_texts_returned {bs : List (Branch Feed FeedComment)}
    (h : ∀ b ∈ bs, b = Branch.returned) : (bs.map Branch.texts).sum = 0 := by
  induction bs with
  | nil => rfl
  | cons b bs ih =>
    have hb := h b (List.mem_cons_self _ _)
    subst hb
    simp only [List.map_cons, List.sum_cons, Branch.texts, zero_add]
    exact ih fun b hb => h b (List.mem_cons_of_mem _ hb)

theorem feed_output {root : Feed} {s : State Feed FeedComment} (h : FeedInv root s)
    (hm : s.main = .returned none) : (↑s.out : Multiset String) = ↑root.texts := by
  have hcl := h.inv.mainNil hm
  have hdone : s.waiter = .done := by
    cases hwt : s.waiter with
    | absent => exact absurd hwt h.started
    | wait => have := h.inv.wait hwt; simp [hcl] at this
    | close => have := (h.inv.close hwt).2; simp [hcl] at this
    | done => rfl
  have h0 : liveCount s.branches = 0 := by rw [← h.inv.wg_eq]; exact (h.inv.done hdone).2
  have := h.texts
  rw [sum_texts_returned (liveCount_eq_zero.mp h0), hm] at this
  simpa [Main.texts] using this

theorem feed_simpleGetVideo (root : Feed) (budget : Nat) (sh : Shared Feed) (videoID : String) :
    simpleGetVideo (feedUpstream root budget) sh videoID =
      (.ok root, { sh with net := sh.net ++ [.video videoID] }) := by
  unfold simpleGetVideo
  rw [Retry_ok { sh with net := sh.net ++ [.video videoID] }
      ⟨200, root⟩]
  · rfl
  · simp [doRequest, feedUpstream]

theorem feed_streamComments_top (root : Feed) (budget : Nat) (job : Job)
    (hsort : job.SortOrder = "top") :
    streamComments (feedUpstream root budget) job =
      launched { job := job, net := [.video job.VideoID], logs := [] }
        (.streamComments (.fetch ⟨"", root⟩ 0)) := by
  unfold streamComments
  have h1 : (feedUpstream root budget).GetVideoID job.VideoID = .ok job.VideoID := rfl
  have h2 : (feedUpstream root budget).InitialCommentContinuation root = some ⟨"", root⟩ := rfl
  simp only [h1, feed_simpleGetVideo, h2, hsort, if_true, List.nil_append]

theorem feedInv_top (root : Feed) (budget : Nat) (job : Job) (hsort : job.SortOrder = "top") :
    FeedInv root (streamComments (feedUpstream root budget) job) := by
  have hi := inv_streamComments (feedUpstream root budget) job
  rw [feed_streamComments_top root budget job hsort] at hi ⊢
  exact ⟨hi, rfl, by simp [launched, Branch.isWalk],
    by simp [launched, Main.texts, Branch.texts, WalkPC.texts], by simp [launched]⟩

theorem feed_effective_le {root : Feed} (budget : Nat) (sched : List Tid) :
    ∀ {s : State Feed FeedComment}, FeedInv root s →
      effective (feedUpstream root budget) s sched
        + (exec (feedUpstream root budget) s sched).work ≤ s.work := by
  induction sched with
  | nil => intro s _; simp [effective, exec]
  | cons t ts ih =>
    intro s h
    simp only [effective, exec]
    cases hs : step (feedUpstream root budget) s t with
    | none => simpa using ih h
    | some s1 =>
      obtain ⟨h1, hlt⟩ := feedInv_step h hs
      have := ih h1
      simp only [Option.getD_some]
      omega

theorem firstStep_some {up : Upstream Tok Cmt Body Vid} {s s1 : State Tok Cmt}
    (h : firstStep up s = some s1) : ∃ t, step up s t = some s1 := by
  unfold firstStep at h
  obtain ⟨t, _, ht⟩ := List.exists_of_findSome?_eq_some h
  exact ⟨t, ht⟩

theorem firstStep_none {up : Upstream Tok Cmt Body Vid} {s : State Tok Cmt}
    (h : firstStep up s = none) (t : Tid) : step up s t = none := by
  unfold firstStep at h
  rw [List.findSome?_eq_none_iff] at h
  cases t with
  | main => exact h _ (by simp [tids])
  | waiter => exact h _ (by simp [tids])
  | branch n =>
    by_cases hn : n < s.branches.length
    · exact h _ (by simp [tids, hn])
    · unfold step
      split
      · rfl
      · have : s.branches[n]? = none := by simp; omega
        simp [stepBranch, this]

theorem feed_run {root : Feed} {budget : Nat} :
    ∀ (fuel : Nat) {s : State Feed FeedComment}, FeedInv root s → s.work ≤ fuel →
      (run (feedUpstream root budget) fuel s).main = .returned none ∧
      FeedInv root (run (feedUpstream root budget) fuel s) := by
  intro fuel
  induction fuel with
  | zero =>
    intro s h hw
    simp only [run]
    refine ⟨?_, h⟩
    cases hm : s.main with
    | returned r =>
      cases r with
      | none => rfl
      | some e => exact absurd hm (h.inv.started h.started e)
    | recv => simp [State.work, Main.work, hm] at hw
    | hold c => simp [State.work, Main.work, hm] at hw
  | succ fuel ih =>
    intro s h hw
    simp only [run]
    cases hf : firstStep (feedUpstream root budget) s with
    | none =>
      simp only
      refine ⟨?_, h⟩
      by_contra hne
      have hm : ∀ r, s.main ≠ .returned r := by
        intro r hr
        cases r with
        | none => exact hne hr
        | some e => exact h.inv.started h.started e hr
      obtain ⟨t, s1, hs⟩ := progress (feedUpstream root budget) h.inv h.alive hm
      rw [firstStep_none hf t] at hs
      cases hs
    | some s1 =>
      simp only
      obtain ⟨t, hs⟩ := firstStep_some hf
      obtain ⟨h1, hlt⟩ := feedInv_step h hs
      exact ih h1 (by omega)

/-! ### The channel closes exactly when every branch has returned -/

theorem step_branches_of_returned {up : Upstream Tok Cmt Body Vid} {s s1 : State Tok Cmt}
    {t : Tid} (h : ∀ b ∈ s.branches, b = Branch.returned) (hs : step up s t = some s1) :
    s1.branches = s.branches := by
  unfold step at hs
  split at hs
  · simp at hs
  · cases t with
    | main =>
      simp only [stepMain] at hs
      split at hs
      · split at hs
        · cases hs; rfl
        · simp at hs
      · split at hs <;> cases hs <;> rfl
      · simp at hs
    | waiter =>
      simp only [stepWaiter] at hs
      split at hs
      · simp at hs
      · split at hs
        · cases hs; rfl
        · simp at hs
      · split at hs <;> cases hs <;> rfl
      · simp at hs
    | branch n =>
      obtain ⟨b, a, sh, hb, hact⟩ := stepBranch_some hs
      have := h b (List.getElem?_mem hb)
      subst this
      simp [Branch.act] at hact

theorem exec_branches_of_returned {up : Upstream Tok Cmt Body Vid} (ext : List Tid) :
    ∀ {s : State Tok Cmt}, (∀ b ∈ s.branches, b = Branch.returned) →
      (exec up s ext).branches = s.branches := by
  induction ext with
  | nil => intro s _; rfl
  | cons t ts ih =>
    intro s h
    simp only [exec]
    cases hs : step up s t with
    | none => simpa using ih h
    | some s1 =>
      have e := step_branches_of_returned h hs
      simp only [Option.getD_some]
      rw [ih (by rw [e]; exact h), e]

theorem waiter_closes {up : Upstream Tok Cmt Body Vid} {s : State Tok Cmt} (h : Inv s)
    (hm : ∀ e, s.main ≠ .returned (some e)) (hc : s.crashed = false)
    (hr : ∀ b ∈ s.branches, b = Branch.returned) :
    (exec up s [.waiter, .waiter]).closed = true := by
  have h0 : s.wg = 0 := by rw [h.wg_eq]; exact liveCount_eq_zero.mpr hr
  cases hwt : s.waiter with
  | absent =>
    obtain ⟨e, he⟩ := (h.absent hwt).2.2.2
    exact absurd he (hm e)
  | wait =>
    have hcl := h.wait hwt
    simp [exec, step, stepWaiter, hc, hwt, h0, hcl]
  | close =>
    have hcl := (h.close hwt).2
    simp [exec, step, stepWaiter, hc, hwt, hcl]
  | done =>
    have hcl := (h.done hwt).1
    simp [exec, step, stepWaiter, hc, hwt, hcl]

/-- Claim C3. In every state that any schedule reaches, the wait-group counter
is the number of branches that were started and have not returned.  While the
channel is closed, and already when `Wait` has returned and the waiter is about
to close it, every branch has returned, and no branch can move (so none can
send).  Branches that have all returned stay so; and once they have, in a job
whose set-up succeeded and that did not panic, the next steps of the waiter
close the channel. -/
theorem waitGroup_counts_running_branches (up : Upstream Tok Cmt Body Vid) (job : Job)
    (sched : List Tid) :
    let s := exec up (streamComments up job) sched
    s.wg = liveCount s.branches ∧
    (s.closed = true → ∀ b ∈ s.branches, b = Branch.returned) ∧
    (s.waiter = .close → ∀ b ∈ s.branches, b = Branch.returned) ∧
    (s.closed = true → ∀ n, stepBranch up s n = none) ∧
    ((∀ b ∈ s.branches, b = Branch.returned) →
      ∀ ext, ∀ b ∈ (exec up s ext).branches, b = Branch.returned) ∧
    ((∀ e, s.main ≠ .returned (some e)) → s.crashed = false →
      (∀ b ∈ s.branches, b = Branch.returned) → (exec up s [.waiter, .waiter]).closed = true) := by
  intro s
  have h : Inv s := inv_reachable up job sched
  have hclosed : s.closed = true → ∀ b ∈ s.branches, b = Branch.returned := by
    intro hcl
    apply liveCount_eq_zero.mp
    rw [← h.wg_eq]
    cases hwt : s.waiter with
    | absent => have := (h.absent hwt).2.2.1; simp [hcl] at this
    | wait => have := h.wait hwt; simp [hcl] at this
    | close => exact (h.close hwt).1
    | done => exact (h.done hwt).2
  refine ⟨h.wg_eq, hclosed, ?_, ?_, ?_, fun hm hc hr => waiter_closes h hm hc hr⟩
  · intro hwt
    apply liveCount_eq_zero.mp
    rw [← h.wg_eq]
    exact (h.close hwt).1
  · intro hcl n
    cases hs : stepBranch up s n with
    | none => rfl
    | some s1 =>
      obtain ⟨b, a, sh, hb, hact⟩ := stepBranch_some hs
      have := hclosed hcl b (List.getElem?_mem hb)
      subst this
      simp [Branch.act] at hact
  · intro hr ext
    rw [exec_branches_of_returned ext hr]
    exact hr

set_option maxRecDepth 100000 in
theorem waitGroup_counts_running_branches_witness :
    (exec (feedUpstream deepFeed 0) (streamComments (feedUpstream deepFeed 0) (jobOf "top"))
        (roundRobin 4 4)).wg = 4 ∧
    (exec (feedUpstream deepFeed 0) (streamComments (feedUpstream deepFeed 0) (jobOf "top"))
        (roundRobin 12 4)).closed = true ∧
    ∀ b ∈ (exec (feedUpstream deepFeed 0) (streamComments (feedUpstream deepFeed 0)
        (jobOf "top")) (roundRobin 12 4)).branches, b = Branch.returned :=
  ⟨by decide, by decide,
    (waitGroup_counts_running_branches (feedUpstream deepFeed 0) (jobOf "top")
      (roundRobin 12 4)).2.1 (by decide)⟩

/-! ### The page fetch -/

theorem doRequest_shared (up : Upstream Tok Cmt Body Vid) (req : Request Tok) (sh : Shared Tok) :
    (doRequest up req sh).2.job = sh.job ∧ (doRequest up req sh).2.net = sh.net ++ [req] := by
  unfold doRequest
  split
  · split <;> simp
  · simp

theorem Retry_doRequest_shared (up : Upstream Tok Cmt Body Vid) (req : Request Tok) :
    ∀ (budget : Nat) (sh : Shared Tok),
      (Retry (doRequest up req) budget sh).2.job = sh.job ∧
      ∃ k, 1 ≤ k ∧ k ≤ budget + 1 ∧
        (Retry (doRequest up req) budget sh).2.net = sh.net ++ List.replicate k req
  | 0, sh => by
    have h := doRequest_shared up req sh
    unfold Retry
    generalize doRequest up req sh = r at h
    obtain ⟨a, sh1⟩ := r
    cases a <;> exact ⟨h.1, 1, le_rfl, le_rfl, by simpa using h.2⟩
  | budget + 1, sh => by
    have h := doRequest_shared up req sh
    unfold Retry
    generalize doRequest up req sh = r at h
    obtain ⟨a, sh1⟩ := r
    cases a with
    | ok res => exact ⟨h.1, 1, le_rfl, by omega, by simpa using h.2⟩
    | permanent err => exact ⟨h.1, 1, le_rfl, by omega, by simpa using h.2⟩
    | retry err =>
      obtain ⟨hj, k, hk1, hk2, hnet⟩ := Retry_doRequest_shared up req budget sh1
      simp only at h ⊢
      refine ⟨hj.trans h.1, k + 1, by omega, by omega, ?_⟩
      rw [hnet, h.2, List.append_assoc]
      rfl

theorem nextCommentPage_shared (up : Upstream Tok Cmt Body Vid) (sh : Shared Tok)
    (cont : CommentContinuation Tok) (i : Int) :
    let r := videoCommentsJob.nextCommentPage up sh cont i
    (∃ k, 1 ≤ k ∧ k ≤ up.backoffBudget + 1 ∧
      r.2.net = sh.net ++ List.replicate k (Request.commentPage cont)) ∧
    r.2.job = match r.1 with
      | .ok (page, _) => sh.job.count page
      | .error _ => sh.job := by
  intro r
  have h := Retry_doRequest_shared up (.commentPage cont) up.backoffBudget sh
  have hr : r = videoCommentsJob.nextCommentPage up sh cont i := rfl
  unfold videoCommentsJob.nextCommentPage at hr
  generalize Retry (doRequest up (.commentPage cont)) up.backoffBudget sh = q at h hr
  obtain ⟨q1, q2⟩ := q
  cases q1 with
  | error err =>
    simp only at hr
    rw [hr]
    exact ⟨h.2, h.1⟩
  | ok res =>
    simp only at hr
    split at hr
    · rw [hr]; exact ⟨h.2, h.1⟩
    · split at hr
      · rw [hr]; exact ⟨h.2, h.1⟩
      · rw [hr]
        refine ⟨h.2, ?_⟩
        simp only [Job.count]
        rw [h.1]

theorem act_fetch (up : Upstream Tok Cmt Body Vid) (sh : Shared Tok) {b : Branch Tok Cmt}
    {cont : CommentContinuation Tok} {i : Int} (hf : b.fetchArgs = some (cont, i)) :
    ∃ a sh1, b.act up sh = some (a, sh1) ∧
      sh1.job = (videoCommentsJob.nextCommentPage up sh cont i).2.job ∧
      sh1.net = (videoCommentsJob.nextCommentPage up sh cont i).2.net ∧
      (∀ c b1, a ≠ .send c b1) ∧ (∀ b1 child, a ≠ .spawn b1 child) ∧
      ((∃ err, (videoCommentsJob.nextCommentPage up sh cont i).1 = .error err) → a = .exit) := by
  cases b with
  | returned => simp [Branch.fetchArgs] at hf
  | streamNewComments cont0 =>
    simp only [Branch.fetchArgs, Option.some.injEq, Prod.mk.injEq] at hf
    obtain ⟨rfl, rfl⟩ := hf
    simp only [Branch.act, videoCommentsJob.streamNewComments]
    generalize videoCommentsJob.nextCommentPage up sh cont0 (-1) = r
    obtain ⟨r1, r2⟩ := r
    cases r1 with
    | error err => exact ⟨_, _, rfl, rfl, rfl, by simp, by simp, by simp⟩
    | ok v =>
      obtain ⟨page, c1⟩ := v
      cases hn : page.NewComments with
      | none =>
        simp only [hn]
        exact ⟨_, _, rfl, rfl, rfl, by simp, by simp, by simp⟩
      | some tok =>
        simp only [hn]
        exact ⟨_, _, rfl, rfl, rfl, by simp, by simp, by simp⟩
  | streamComments pc =>
    cases pc with
    | fetch cont0 i0 =>
      simp only [Branch.fetchArgs, Option.some.injEq, Prod.mk.injEq] at hf
      obtain ⟨rfl, rfl⟩ := hf
      simp only [Branch.act, videoCommentsJob.streamComments]
      generalize videoCommentsJob.nextCommentPage up sh cont0 i0 = r
      obtain ⟨r1, r2⟩ := r
      cases r1 with
      | error err => exact ⟨_, _, rfl, rfl, rfl, by simp, by simp, by simp⟩
      | ok v =>
        obtain ⟨page, c1⟩ := v
        exact ⟨_, _, rfl, rfl, rfl, by simp, by simp, by simp⟩
    | range _ _ _ _ => simp [Branch.fetchArgs] at hf
    | send _ _ _ _ _ => simp [Branch.fetchArgs] at hf
  | streamLiveComments pc =>
    cases pc with
    | prime cont0 =>
      simp only [Branch.fetchArgs, Option.some.injEq, Prod.mk.injEq] at hf
      obtain ⟨rfl, rfl⟩ := hf
      simp only [Branch.act, videoCommentsJob.streamLiveComments]
      generalize videoCommentsJob.nextCommentPage up sh cont0 (-1) = r
      obtain ⟨r1, r2⟩ := r
      cases r1 with
      | error err => exact ⟨_, _, rfl, rfl, rfl, by simp, by simp, by simp⟩
      | ok v =>
        obtain ⟨page, c1⟩ := v
        cases hn : page.NewComments with
        | none =>
          simp only [hn]
          exact ⟨_, _, rfl, rfl, rfl, by simp, by simp, by simp⟩
        | some tok =>
          simp only [hn]
          exact ⟨_, _, rfl, rfl, rfl, by simp, by simp, by simp⟩
    | fetch cont0 i0 =>
      simp only [Branch.fetchArgs, Option.some.injEq, Prod.mk.injEq] at hf
      obtain ⟨rfl, rfl⟩ := hf
      simp only [Branch.act, videoCommentsJob.streamLiveComments]
      generalize videoCommentsJob.nextCommentPage up sh cont0 i0 = r
      obtain ⟨r1, r2⟩ := r
      cases r1 with
      | error err => exact ⟨_, _, rfl, rfl, rfl, by simp, by simp, by simp⟩
      | ok v =>
        obtain ⟨page, c1⟩ := v
        cases hn : page.NewComments with
        | none =>
          simp only [hn]
          exact ⟨_, _, rfl, rfl, rfl, by simp, by simp, by simp⟩
        | some tok =>
          simp only [hn]
          exact ⟨_, _, rfl, rfl, rfl, by simp, by simp, by simp⟩
    | range _ _ _ => simp [Branch.fetchArgs] at hf
    | send _ _ _ _ => simp [Branch.fetchArgs] at hf

theorem act_noFetch (up : Upstream Tok Cmt Body Vid) (sh : Shared Tok) {b : Branch Tok Cmt}
    {a : Action Tok Cmt} {sh1 : Shared Tok} (hf : b.fetchArgs = none)
    (hact : b.act up sh = some (a, sh1)) : sh1 = sh := by
  cases b with
  | returned => simp [Branch.act] at hact
  | streamNewComments cont0 => simp [Branch.fetchArgs] at hf
  | streamComments pc =>
    cases pc with
    | fetch cont0 i0 => simp [Branch.fetchArgs] at hf
    | range cont0 i0 more cs =>
      cases cs with
      | nil =>
        simp only [Branch.act, videoCommentsJob.streamComments, Option.some.injEq] at hact
        split at hact <;> simp at hact <;> exact hact.2.symm
      | cons c cs =>
        simp only [Branch.act, videoCommentsJob.streamComments, Option.some.injEq] at hact
        split at hact <;> simp at hact <;> exact hact.2.symm
    | send cont0 i0 more c cs =>
      simp only [Branch.act, videoCommentsJob.streamComments, Option.some.injEq] at hact
      simp at hact
      exact hact.2.symm
  | streamLiveComments pc =>
    cases pc with
    | prime cont0 => simp [Branch.fetchArgs] at hf
    | fetch cont0 i0 => simp [Branch.fetchArgs] at hf
    | range cont0 i0 cs =>
      cases cs with
      | nil =>
        simp only [Branch.act, videoCommentsJob.streamLiveComments, Option.some.injEq] at hact
        simp at hact
        exact hact.2.symm
      | cons c cs =>
        simp only [Branch.act, videoCommentsJob.streamLiveComments, Option.some.injEq] at hact
        split at hact <;> simp at hact <;> exact hact.2.symm
    | send cont0 i0 c cs =>
      simp only [Branch.act, videoCommentsJob.streamLiveComments, Option.some.injEq] at hact
      simp at hact
      exact hact.2.symm

theorem stepBranch_shared {up : Upstream Tok Cmt Body Vid} {s : State Tok Cmt} {n : Nat}
    {b : Branch Tok Cmt} {a : Action Tok Cmt} {sh : Shared Tok}
    (hb : s.branches[n]? = some b) (hact : b.act up s.shared = some (a, sh)) :
    (∀ s1, stepBranch up s n = some s1 → s1.shared = sh) ∧
    ((∀ c b1, a ≠ .send c b1) → ∃ s1, stepBranch up s n = some s1) := by
  unfold stepBranch
  simp only [hb, hact]
  cases a with
  | goto b1 => simp
  | spawn b1 child => simp
  | send c b1 =>
    refine ⟨?_, fun h => absurd rfl (h c b1)⟩
    intro s1 hs
    simp only at hs
    split at hs
    · cases hs; rfl
    · split at hs
      · cases hs; rfl
      · simp at hs
  | exit =>
    constructor
    · intro s1 hs
      simp only at hs
      split at hs <;> cases hs <;> rfl
    · intro _
      simp only
      split <;> simp
  | panic => simp

theorem stepMain_shared {up : Upstream Tok Cmt Body Vid} {s s1 : State Tok Cmt}
    (hs : stepMain up s = some s1) : s1.shared = s.shared := by
  unfold stepMain at hs
  split at hs
  · split at hs
    · cases hs; rfl
    · simp at hs
  · split at hs <;> cases hs <;> rfl
  · simp at hs

theorem stepWaiter_shared {s s1 : State Tok Cmt}
    (hs : stepWaiter s = some s1) : s1.shared = s.shared := by
  unfold stepWaiter at hs
  split at hs
  · simp at hs
  · split at hs
    · cases hs; rfl
    · simp at hs
  · split at hs <;> cases hs <;> rfl
  · simp at hs

theorem step_job (up : Upstream Tok Cmt Body Vid) (s : State Tok Cmt) (t : Tid) :
    ((step up s t).getD s).shared.job =
      match stepPage up s t with
      | some page => s.shared.job.count page
      | none => s.shared.job := by
  unfold step
  cases hc : s.crashed with
  | true => cases t <;> simp [stepPage, stepFetch, hc]
  | false =>
    simp only [Bool.false_eq_true, if_false]
    cases t with
    | main =>
      simp only [stepPage, stepFetch]
      cases hs : stepMain up s with
      | none => rfl
      | some s1 => simp [stepMain_shared hs]
    | waiter =>
      simp only [stepPage, stepFetch]
      cases hs : stepWaiter s with
      | none => rfl
      | some s1 => simp [stepWaiter_shared hs]
    | branch n =>
      simp only [stepPage, stepFetch, hc, Bool.false_eq_true, if_false]
      cases hb : s.branches[n]? with
      | none => simp [stepBranch, hb]
      | some b =>
        simp only
        cases hf : b.fetchArgs with
        | none =>
          simp only
          cases hs : stepBranch up s n with
          | none => rfl
          | some s1 =>
            obtain ⟨b', a, sh, hb', hact⟩ := stepBranch_some hs
            rw [hb] at hb'
            cases hb'
            have := (stepBranch_shared hb hact).1 s1 hs
            simp [this, act_noFetch up s.shared hf hact]
        | some ci =>
          obtain ⟨cont, i⟩ := ci
          obtain ⟨a, sh1, hact, hjob, _, hsend, _, _⟩ := act_fetch up s.shared hf
          obtain ⟨s1, hs⟩ := (stepBranch_shared hb hact).2 hsend
          have hsh := (stepBranch_shared hb hact).1 s1 hs
          have hn := (nextCommentPage_shared up s.shared cont i).2
          simp only [hs, Option.getD_some, hsh, hjob]
          rw [hn]
          generalize videoCommentsJob.nextCommentPage up s.shared cont i = r
          obtain ⟨r1, r2⟩ := r
          cases r1 with
          | error err => rfl
          | ok v => rfl

theorem wrapInt64_of_range {x : Int} (h1 : -2 ^ 63 ≤ x) (h2 : x < 2 ^ 63) : wrapInt64 x = x := by
  unfold wrapInt64
  norm_num at h1 h2 ⊢
  omega

theorem totalItems_nonneg (pages : List (CommentPage Tok Cmt)) : 0 ≤ totalItems pages := by
  induction pages with
  | nil => simp [totalItems]
  | cons p ps ih =>
    simp only [totalItems, List.map_cons, List.sum_cons] at ih ⊢
    omega

theorem exec_counters (up : Upstream Tok Cmt Body Vid) (sched : List Tid) :
    ∀ (s : State Tok Cmt),
      -2 ^ 63 ≤ s.shared.job.Pages →
      s.shared.job.Pages + (pagesFetched up s sched).length < 2 ^ 63 →
      -2 ^ 63 ≤ s.shared.job.Items →
      s.shared.job.Items + totalItems (pagesFetched up s sched) < 2 ^ 63 →
      (exec up s sched).shared.job.Pages = s.shared.job.Pages + (pagesFetched up s sched).length ∧
      (exec up s sched).shared.job.Items
        = s.shared.job.Items + totalItems (pagesFetched up s sched) := by
  induction sched with
  | nil => intro s _ _ _ _; simp [exec, pagesFetched, totalItems]
  | cons t ts ih =>
    intro s hp1 hp2 hi1 hi2
    have hj := step_job up s t
    simp only [exec, pagesFetched] at hp2 hi2 ⊢
    have hnn := totalItems_nonneg (pagesFetched up ((step up s t).getD s) ts)
    cases hpage : stepPage up s t with
    | none =>
      rw [hpage] at hj hp2 hi2
      simp only [Option.toList, List.nil_append] at hp2 hi2 ⊢
      have := ih ((step up s t).getD s) (by rw [hj]; exact hp1) (by rw [hj]; exact hp2)
        (by rw [hj]; exact hi1) (by rw [hj]; exact hi2)
      rw [hj] at this
      exact this
    | some page =>
      rw [hpage] at hj hp2 hi2
      simp only [Option.toList, List.singleton_append, List.length_cons, Nat.cast_add,
        Nat.cast_one, totalItems, List.map_cons, List.sum_cons] at hp2 hi2 ⊢
      simp only [totalItems] at hnn
      have hP : ((step up s t).getD s).shared.job.Pages = s.shared.job.Pages + 1 := by
        rw [hj]
        simp only [Job.count, atomicAddInt64]
        exact wrapInt64_of_range (by omega) (by omega)
      have hI : ((step up s t).getD s).shared.job.Items
          = s.shared.job.Items + page.Comments.length := by
        rw [hj]
        simp only [Job.count, atomicAddInt64]
        exact wrapInt64_of_range (by omega) (by omega)
      have := ih ((step up s t).getD s) (by rw [hP]; omega) (by rw [hP]; omega)
        (by rw [hI]; omega) (by rw [hI]; simp only [totalItems]; omega)
      rw [hP, hI] at this
      simp only [totalItems] at this
      constructor
      · rw [this.1]; omega
      · rw [this.2]; omega

/-- Claim C4. A successful `nextCommentPage` adds 1 to `Pages` and the number of
comments of the returned page to `Items` (as `int64` additions, hence exactly
while the counters stay in range), whatever the continuation and whichever
traversal calls it; a failing call leaves the counters alone.  Hence along any
run, from any state, the counters grow by the number of pages returned and by
the total number of their comments. -/
theorem counters_count_pages_and_items (up : Upstream Tok Cmt Body Vid) :
    (∀ sh cont i page cont1 sh1,
      videoCommentsJob.nextCommentPage up sh cont i = (.ok (page, cont1), sh1) →
        sh1.job.Pages = atomicAddInt64 sh.job.Pages 1 ∧
        sh1.job.Items = atomicAddInt64 sh.job.Items page.Comments.length ∧
        (-2 ^ 63 ≤ sh.job.Pages → sh.job.Pages + 1 < 2 ^ 63 →
          sh1.job.Pages = sh.job.Pages + 1) ∧
        (-2 ^ 63 ≤ sh.job.Items → sh.job.Items + page.Comments.length < 2 ^ 63 →
          sh1.job.Items = sh.job.Items + page.Comments.length)) ∧
    (∀ sh cont i err sh1,
      videoCommentsJob.nextCommentPage up sh cont i = (.error err, sh1) → sh1.job = sh.job) ∧
    (∀ (s : State Tok Cmt) (sched : List Tid),
      -2 ^ 63 ≤ s.shared.job.Pages →
      s.shared.job.Pages + (pagesFetched up s sched).length < 2 ^ 63 →
      -2 ^ 63 ≤ s.shared.job.Items →
      s.shared.job.Items + totalItems (pagesFetched up s sched) < 2 ^ 63 →
      (exec up s sched).shared.job.Pages = s.shared.job.Pages + (pagesFetched up s sched).length ∧
      (exec up s sched).shared.job.Items
        = s.shared.job.Items + totalItems (pagesFetched up s sched)) := by
  refine ⟨?_, ?_, fun s sched => exec_counters up sched s⟩
  · intro sh cont i page cont1 sh1 h
    have hn := (nextCommentPage_shared up sh cont i).2
    rw [h] at hn
    simp only [Job.count] at hn
    have hP : sh1.job.Pages = atomicAddInt64 sh.job.Pages 1 := by rw [hn]
    have hI : sh1.job.Items = atomicAddInt64 sh.job.Items page.Comments.length := by rw [hn]
    refine ⟨hP, hI, fun h1 h2 => ?_, fun h1 h2 => ?_⟩
    · rw [hP]; exact wrapInt64_of_range (by omega) (by omega)
    · rw [hI]; exact wrapInt64_of_range (by omega) (by omega)
  · intro sh cont i err sh1 h
    have hn := (nextCommentPage_shared up sh cont i).2
    rw [h] at hn
    exact hn

set_option maxRecDepth 100000 in
theorem counters_count_pages_and_items_witness :
    (pagesFetched (feedUpstream pagedFeed 0) (streamComments (feedUpstream pagedFeed 0)
      (jobOf "top")) (roundRobin 40 1)).map (fun p => p.Comments.length) = [5, 5, 2] ∧
    (exec (feedUpstream pagedFeed 0) (streamComments (feedUpstream pagedFeed 0) (jobOf "top"))
      (roundRobin 40 1)).main = .returned none ∧
    (exec (feedUpstream pagedFeed 0) (streamComments (feedUpstream pagedFeed 0) (jobOf "top"))
      (roundRobin 40 1)).shared.job.Pages = 3 ∧
    (exec (feedUpstream pagedFeed 0) (streamComments (feedUpstream pagedFeed 0) (jobOf "top"))
      (roundRobin 40 1)).shared.job.Items = 12 :=
  ⟨by decide, by decide,
    (counters_count_pages_and_items (feedUpstream pagedFeed 0)).2.2
      (streamComments (feedUpstream pagedFeed 0) (jobOf "top")) (roundRobin 40 1)
      (by decide) (by decide) (by decide) (by decide)⟩

/-! ### Feeds without failing requests -/

theorem Feed.succeeds_page (t : Feed) (h : t.succeeds = true) :
    t.page.1.all FeedComment.succeeds = true ∧ t.page.2.2.succeeds = true := by
  induction t with
  | last => simp [Feed.page, Feed.succeeds]
  | more next _ => simpa [Feed.page, Feed.succeeds] using h
  | comment text rest ih =>
    simp only [Feed.succeeds] at h
    have := ih h
    simp only [Feed.page, List.all_cons, FeedComment.succeeds, Bool.true_and]
    exact this
  | thread text replies rest _ ih =>
    simp only [Feed.succeeds, Bool.and_eq_true] at h
    have := ih h.2
    simp only [Feed.page, List.all_cons, FeedComment.succeeds, h.1, Bool.true_and]
    exact this
  | limit uri => simp [Feed.succeeds] at h
  | fail => simp [Feed.succeeds] at h

theorem feed_nextCommentPage_ok (root : Feed) (budget : Nat) (sh : Shared Feed)
    (cont : CommentContinuation Feed) (i : Int) (h : cont.Token.succeeds = true) :
    ∃ e, e.isInfo = true ∧
      videoCommentsJob.nextCommentPage (feedUpstream root budget) sh cont i =
        (.ok (⟨cont.Token.page.1, cont.Token.page.2.1, none, []⟩,
            { cont with Token := cont.Token.page.2.2 }),
          { job := sh.job.count (⟨cont.Token.page.1, cont.Token.page.2.1, none, []⟩ :
              CommentPage Feed FeedComment),
            net := sh.net ++ [.commentPage cont], logs := sh.logs ++ [e] }) := by
  have hdo : doRequest (feedUpstream root budget) (.commentPage cont) sh =
      (.ok ⟨200, cont.Token⟩, { sh with net := sh.net ++ [.commentPage cont] }) := by
    cases htok : cont.Token <;> simp [htok, Feed.succeeds] at h <;>
      simp [doRequest, feedUpstream, htok]
  unfold videoCommentsJob.nextCommentPage
  rw [Retry_ok _ _ hdo]
  by_cases hp : cont.ParentID = ""
  · exact ⟨.info "Page" i "", rfl, by
      simp [feedUpstream, StatusRequestEntityTooLarge, StatusRequestURITooLong, hp, Job.count]⟩
  · exact ⟨.info "Sub page" i cont.ParentID, rfl, by
      simp [feedUpstream, StatusRequestEntityTooLarge, StatusRequestURITooLong, hp, Job.count]⟩

theorem succeeds_set {bs : List (Branch Feed FeedComment)} {n : Nat}
    {b1 : Branch Feed FeedComment}
    (h : ∀ b ∈ bs, b.succeeds = true) (h1 : b1.succeeds = true) :
    ∀ b ∈ bs.set n b1, b.succeeds = true := by
  intro b hb
  rcases List.mem_or_eq_of_mem_set hb with hb | hb
  · exact h b hb
  · rw [hb]; exact h1

theorem okInv_step {root : Feed} {budget : Nat} {s s1 : State Feed FeedComment} {t : Tid}
    (hi : Inv s) (h : OkInv s) (hs : step (feedUpstream root budget) s t = some s1) :
    OkInv s1 := by
  unfold step at hs
  split at hs
  · simp at hs
  · cases t with
    | main =>
      replace hs : stepMain (feedUpstream root budget) s = some s1 := hs
      have hsh := stepMain_shared hs
      have hbr : s1.branches = s.branches := by
        simp only [stepMain] at hs
        split at hs
        · split at hs
          · cases hs; rfl
          · simp at hs
        · split at hs <;> cases hs <;> rfl
        · simp at hs
      exact ⟨by rw [hbr]; exact h.branches, by rw [hsh]; exact h.logs⟩
    | waiter =>
      replace hs : stepWaiter s = some s1 := hs
      have hsh := stepWaiter_shared hs
      have hbr : s1.branches = s.branches := by
        simp only [stepWaiter] at hs
        split at hs
        · simp at hs
        · split at hs
          · cases hs; rfl
          · simp at hs
        · split at hs <;> cases hs <;> rfl
        · simp at hs
      exact ⟨by rw [hbr]; exact h.branches, by rw [hsh]; exact h.logs⟩
    | branch n =>
      replace hs : stepBranch (feedUpstream root budget) s n = some s1 := hs
      obtain ⟨b, a, sh, hb, hact⟩ := stepBranch_some hs
      rw [stepBranch_eq hi hb hact] at hs
      have hbs := h.branches b (List.getElem?_mem hb)
      cases b with
      | returned => simp [Branch.act] at hact
      | streamNewComments cont => simp [Branch.succeeds] at hbs
      | streamLiveComments pc => simp [Branch.succeeds] at hbs
      | streamComments pc =>
        simp only [Branch.act, Option.some.injEq] at hact
        cases pc with
        | fetch cont i =>
          simp only [Branch.succeeds] at hbs
          obtain ⟨e, he, hn⟩ := feed_nextCommentPage_ok root budget s.shared cont i hbs
          simp only [videoCommentsJob.streamComments, hn, Prod.mk.injEq] at hact
          obtain ⟨rfl, rfl⟩ := hact
          simp only [applyAction, Option.some.injEq] at hs
          subst hs
          have hp := Feed.succeeds_page cont.Token hbs
          refine ⟨succeeds_set h.branches ?_, ?_⟩
          · simp [Branch.succeeds, hp.1, hp.2]
          · intro e1 he1
            simp only [List.mem_append, List.mem_singleton] at he1
            rcases he1 with he1 | he1
            · exact h.logs e1 he1
            · rw [he1]; exact he
        | range cont i more cs =>
          cases cs with
          | nil =>
            simp only [videoCommentsJob.streamComments] at hact
            split at hact
            · simp only [Prod.mk.injEq] at hact
              obtain ⟨rfl, rfl⟩ := hact
              simp only [applyAction, Option.some.injEq] at hs
              subst hs
              simp only [Branch.succeeds, Bool.and_eq_true] at hbs
              exact ⟨succeeds_set h.branches (by simp [Branch.succeeds, hbs.1]), h.logs⟩
            · simp only [Prod.mk.injEq] at hact
              obtain ⟨rfl, rfl⟩ := hact
              simp only [applyAction, Option.some.injEq] at hs
              subst hs
              exact ⟨succeeds_set h.branches rfl, h.logs⟩
          | cons c cs =>
            simp only [Branch.succeeds, List.all_cons, Bool.and_eq_true] at hbs
            simp only [videoCommentsJob.streamComments, feedUpstream] at hact
            cases hr : c.replies with
            | none =>
              simp only [hr, Option.map_none', Prod.mk.injEq] at hact
              obtain ⟨rfl, rfl⟩ := hact
              simp only [applyAction, Option.some.injEq] at hs
              subst hs
              exact ⟨succeeds_set h.branches (by simp [Branch.succeeds, hbs.1, hbs.2.2]),
                h.logs⟩
            | some r =>
              simp only [hr, Option.map_some', Prod.mk.injEq] at hact
              obtain ⟨rfl, rfl⟩ := hact
              simp only [applyAction, Option.some.injEq] at hs
              subst hs
              have hrs : r.succeeds = true := by
                have := hbs.2.1
                simpa [FeedComment.succeeds, hr] using this
              refine ⟨?_, h.logs⟩
              intro b hb'
              rcases List.mem_append.mp hb' with hb' | hb'
              · exact succeeds_set h.branches (by simp [Branch.succeeds, hbs.1, hbs.2.2]) b hb'
              · simp only [List.mem_singleton] at hb'
                rw [hb']
                simpa [Branch.succeeds] using hrs
        | send cont i more c cs =>
          simp only [Branch.succeeds, Bool.and_eq_true] at hbs
          simp only [videoCommentsJob.streamComments, Prod.mk.injEq] at hact
          obtain ⟨rfl, rfl⟩ := hact
          simp only [applyAction] at hs
          split at hs
          · simp only [Option.some.injEq] at hs
            subst hs
            exact ⟨succeeds_set h.branches (by simp [Branch.succeeds, hbs.1, hbs.2]), h.logs⟩
          · simp at hs

theorem okInv_exec {root : Feed} (budget : Nat) (sched : List Tid) :
    ∀ {s : State Feed FeedComment}, Inv s → OkInv s →
      OkInv (exec (feedUpstream root budget) s sched) := by
  induction sched with
  | nil => intro s _ h; exact h
  | cons t ts ih =>
    intro s hi h
    simp only [exec]
    cases hs : step (feedUpstream root budget) s t with
    | none => simpa using ih hi h
    | some s1 => simpa using ih (inv_step hi hs) (okInv_step hi h hs)

theorem okInv_top (root : Feed) (budget : Nat) (job : Job) (hsort : job.SortOrder = "top")
    (hok : root.succeeds = true) :
    OkInv (streamComments (feedUpstream root budget) job) := by
  rw [feed_streamComments_top root budget job hsort]
  exact ⟨by simpa [launched, Branch.succeeds] using hok, by simp [launched]⟩

/-! ### Sort order "top": every comment exactly once -/

/-- Claim C2. A job with sort order "top" over a finite feed whose requests all
succeed: whenever `streamComments` has returned, the texts written to `out`
are, as a multiset, exactly the comments of the feed on all pages and at all
reply depths; before that they are a part of them; no schedule makes the job
panic or fail, every schedule can be continued until `streamComments` returns
`nil`, the scheduler `run` reaches that end with fuel `State.work` of the
initial state, no schedule moves the goroutines more often than the bound
`State.work` of the initial state, and nothing but the page lines of
successful fetches is ever logged. -/
theorem top_emits_every_comment_once (root : Feed) (budget : Nat) (job : Job)
    (sched : List Tid) (hsort : job.SortOrder = "top") (hok : root.succeeds = true) :
    let up := feedUpstream root budget
    let s := exec up (streamComments up job) sched
    (s.main = .returned none → (↑s.out : Multiset String) = ↑root.texts) ∧
    (↑s.out : Multiset String) ≤ ↑root.texts ∧
    s.crashed = false ∧
    (∀ e, s.main ≠ .returned (some e)) ∧
    (∃ ext, (exec up s ext).main = .returned none) ∧
    (∀ fuel, (streamComments up job).work ≤ fuel →
      (run up fuel (streamComments up job)).main = .returned none ∧
      (↑(run up fuel (streamComments up job)).out : Multiset String) = ↑root.texts) ∧
    effective up (streamComments up job) sched ≤ (streamComments up job).work ∧
    (∀ e ∈ s.shared.logs, e.isInfo = true) := by
  intro up s
  have h0 := feedInv_top root budget job hsort
  have h : FeedInv root s := feedInv_exec budget sched h0
  refine ⟨feed_output h, ?_, h.alive, h.inv.started h.started, feed_completes _ le_rfl h,
    fun fuel hf => ⟨(feed_run fuel h0 hf).1, feed_output (feed_run fuel h0 hf).2 (feed_run fuel h0 hf).1⟩,
    ?_, (okInv_exec budget sched h0.inv (okInv_top root budget job hsort hok)).logs⟩
  · rw [← h.texts, add_assoc]
    exact Multiset.le_add_right _ _
  · exact le_trans (Nat.le_add_right _ _) (feed_effective_le budget sched h0)

set_option maxRecDepth 100000 in
theorem top_emits_every_comment_once_witness :
    helloFeed.succeeds = true ∧
    (↑(exec (feedUpstream helloFeed 0) (streamComments (feedUpstream helloFeed 0) (jobOf "top"))
        (roundRobin 10 2)).out : Multiset String) = ↑["hello", "r1", "r2"] :=
  ⟨by decide,
    (top_emits_every_comment_once helloFeed 0 (jobOf "top") (roundRobin 10 2) (by decide)
      (by decide)).1 (by decide)⟩

/-! ### Unknown sort order -/

theorem exec_failed (up : Upstream Tok Cmt Body Vid) (sh : Shared Tok) (err : GoError)
    (sched : List Tid) : exec up (failed sh err) sched = failed sh err := by
  induction sched with
  | nil => rfl
  | cons t ts ih =>
    have : step up (failed sh err) t = none := by
      cases t <;> simp [step, failed, stepMain, stepWaiter, stepBranch]
    simp [exec, this, ih]

theorem simpleGetVideo_net (up : Upstream Tok Cmt Body Vid) (sh : Shared Tok)
    (videoID : String) :
    ∃ k, 1 ≤ k ∧ (simpleGetVideo up sh videoID).2.net
      = sh.net ++ List.replicate k (Request.video videoID) := by
  obtain ⟨_, k, hk, _, hnet⟩ := Retry_doRequest_shared up (.video videoID) up.backoffBudget sh
  refine ⟨k, hk, ?_⟩
  unfold simpleGetVideo
  generalize Retry (doRequest up (.video videoID)) up.backoffBudget sh = r at hnet
  obtain ⟨r1, r2⟩ := r
  cases r1 with
  | error err => exact hnet
  | ok res =>
    simp only
    split <;> exact hnet

/-- Claim C1, as the code has it. A job whose sort order is none of "top", "age",
"live" makes `streamComments` return an error without starting any goroutine:
nothing is written, no comment page is ever requested, and no schedule changes
the state.  The sort order is looked at last: when the video identifier is
resolved, the video fetched and parsed and an initial continuation found, the
error is the "unknown sort order" one, and by then the video request has been
issued at least once.  When an earlier step fails the error is that step's:
the error of `GetVideoID` (no request issued), the error of `simpleGetVideo`,
or "failed to request comments". -/
theorem unknown_sort_fails_after_video_fetch (up : Upstream Tok Cmt Body Vid) (job : Job)
    (sched : List Tid)
    (hsort : job.SortOrder ≠ "top" ∧ job.SortOrder ≠ "age" ∧ job.SortOrder ≠ "live") :
    exec up (streamComments up job) sched = streamComments up job ∧
    (∃ err, (streamComments up job).main = .returned (some err)) ∧
    (streamComments up job).out = [] ∧
    (streamComments up job).branches = [] ∧
    (∀ req ∈ (streamComments up job).shared.net, ∃ id, req = Request.video id) ∧
    (∀ videoID vid sh1 cont,
      up.GetVideoID job.VideoID = .ok videoID →
      simpleGetVideo up { job := job, net := [], logs := [] } videoID = (.ok vid, sh1) →
      up.InitialCommentContinuation vid = some cont →
        (streamComments up job).main = .returned (some (.unknownSortOrder job.SortOrder)) ∧
        (streamComments up job).shared = sh1 ∧
        ∃ k, 1 ≤ k ∧ sh1.net = List.replicate k (Request.video videoID)) ∧
    (∀ err, up.GetVideoID job.VideoID = .error err →
      streamComments up job = failed { job := job, net := [], logs := [] } err) ∧
    (∀ videoID err sh1,
      up.GetVideoID job.VideoID = .ok videoID →
      simpleGetVideo up { job := job, net := [], logs := [] } videoID = (.error err, sh1) →
        streamComments up job = failed sh1 err) ∧
    (∀ videoID vid sh1,
      up.GetVideoID job.VideoID = .ok videoID →
      simpleGetVideo up { job := job, net := [], logs := [] } videoID = (.ok vid, sh1) →
      up.InitialCommentContinuation vid = none →
        streamComments up job = failed sh1 .failedToRequestComments) := by
  obtain ⟨h1, h2, h3⟩ := hsort
  have e1 : ∀ err, up.GetVideoID job.VideoID = .error err →
      streamComments up job = failed { job := job, net := [], logs := [] } err := by
    intro err hid
    unfold streamComments
    simp only [hid]
  have e2 : ∀ videoID err sh1,
      up.GetVideoID job.VideoID = .ok videoID →
      simpleGetVideo up { job := job, net := [], logs := [] } videoID = (.error err, sh1) →
        streamComments up job = failed sh1 err := by
    intro videoID err sh1 hid hsv
    unfold streamComments
    simp only [hid, hsv]
  have e3 : ∀ videoID vid sh1,
      up.GetVideoID job.VideoID = .ok videoID →
      simpleGetVideo up { job := job, net := [], logs := [] } videoID = (.ok vid, sh1) →
      up.InitialCommentContinuation vid = none →
        streamComments up job = failed sh1 .failedToRequestComments := by
    intro videoID vid sh1 hid hsv hc
    unfold streamComments
    simp only [hid, hsv, hc]
  have key : ∃ sh err, streamComments up job = failed sh err ∧
      (∀ req ∈ sh.net, ∃ id, req = Request.video id) ∧
      (∀ videoID vid sh1 cont,
        up.GetVideoID job.VideoID = .ok videoID →
        simpleGetVideo up { job := job, net := [], logs := [] } videoID = (.ok vid, sh1) →
        up.InitialCommentContinuation vid = some cont →
          err = .unknownSortOrder job.SortOrder ∧ sh = sh1 ∧
          ∃ k, 1 ≤ k ∧ sh1.net = List.replicate k (Request.video videoID)) := by
    unfold streamComments
    simp only [h1, h2, h3, if_false]
    cases hid : up.GetVideoID job.VideoID with
    | error err =>
      exact ⟨_, _, rfl, by simp, by intro _ _ _ _ h; cases h⟩
    | ok videoID =>
      obtain ⟨k, hk, hnet⟩ := simpleGetVideo_net up { job := job, net := [], logs := [] } videoID
      simp only [List.nil_append] at hnet
      have hreq : ∀ req ∈ (simpleGetVideo up { job := job, net := [], logs := [] } videoID).2.net,
          ∃ id, req = Request.video id := by
        intro req hreq
        rw [hnet] at hreq
        exact ⟨videoID, List.eq_of_mem_replicate hreq⟩
      simp only
      cases hsv : simpleGetVideo up { job := job, net := [], logs := [] } videoID with
      | mk r1 r2 =>
      rw [hsv] at hnet hreq
      cases r1 with
      | error err =>
        refine ⟨_, _, rfl, hreq, ?_⟩
        intro v vid sh1 cont hv hs _
        cases hv
        rw [hsv] at hs
        cases hs
      | ok vid =>
        simp only
        cases hc : up.InitialCommentContinuation vid with
        | none =>
          refine ⟨_, _, rfl, hreq, ?_⟩
          intro v vid1 sh1 cont hv hs hc1
          cases hv
          rw [hsv] at hs
          cases hs
          rw [hc] at hc1
          cases hc1
        | some cont =>
          refine ⟨_, _, rfl, hreq, ?_⟩
          intro v vid1 sh1 cont1 hv hs _
          cases hv
          rw [hsv] at hs
          cases hs
          exact ⟨rfl, rfl, k, hk, hnet⟩
  obtain ⟨sh, err, hst, hreq, hlast⟩ := key
  refine ⟨?_, ?_, ?_, ?_, ?_, ?_, e1, e2, e3⟩
  · rw [hst]; exact exec_failed up sh err sched
  · rw [hst]; exact ⟨err, rfl⟩
  · rw [hst]; rfl
  · rw [hst]; rfl
  · rw [hst]; exact hreq
  · intro videoID vid sh1 cont hv hs hc
    obtain ⟨he, hsh, hk⟩ := hlast videoID vid sh1 cont hv hs hc
    rw [hst]
    exact ⟨by rw [he]; rfl, hsh, hk⟩

theorem unknown_sort_fails_after_video_fetch_witness :
    ((jobOf "newest").SortOrder ≠ "top" ∧ (jobOf "newest").SortOrder ≠ "age" ∧
      (jobOf "newest").SortOrder ≠ "live") ∧
    exec (feedUpstream helloFeed 0) (streamComments (feedUpstream helloFeed 0) (jobOf "newest"))
      (roundRobin 3 2) = streamComments (feedUpstream helloFeed 0) (jobOf "newest") :=
  ⟨by decide,
    (unknown_sort_fails_after_video_fetch (feedUpstream helloFeed 0) (jobOf "newest")
      (roundRobin 3 2) (by decide)).1⟩

/-- Claim C1, as stated, fails. With the unknown sort order "newest" the
"unknown sort order" error is returned only after the video has been requested:
the transport log holds that request. -/
theorem unknown_sort_not_before_network :
    (streamComments (feedUpstream helloFeed 0) (jobOf "newest")).main
      = .returned (some (.unknownSortOrder "newest")) ∧
    (streamComments (feedUpstream helloFeed 0) (jobOf "newest")).shared.net
      = [Request.video "abc"] ∧
    (streamComments (feedUpstream helloFeed 0) (jobOf "newest")).shared.net ≠ [] := by
  decide

/-! ### The priming page of "age" and "live" -/

theorem step_fetch_net {up : Upstream Tok Cmt Body Vid} {s : State Tok Cmt} {n : Nat}
    {b : Branch Tok Cmt} {cont : CommentContinuation Tok} {i : Int}
    (hc : s.crashed = false) (hb : s.branches[n]? = some b) (hf : b.fetchArgs = some (cont, i)) :
    ∃ s1 k, step up s (.branch n) = some s1 ∧ 1 ≤ k ∧
      s1.shared.net = s.shared.net ++ List.replicate k (Request.commentPage cont) := by
  obtain ⟨a, sh1, hact, _, hnet, hsend, _, _⟩ := act_fetch up s.shared hf
  obtain ⟨s1, hs⟩ := (stepBranch_shared hb hact).2 hsend
  have hsh := (stepBranch_shared hb hact).1 s1 hs
  obtain ⟨k, hk, _, hk2⟩ := (nextCommentPage_shared up s.shared cont i).1
  exact ⟨s1, k, by simp [step, hc, hs], hk, by rw [hsh, hnet, hk2]⟩

theorem launched_quiet (up : Upstream Tok Cmt Body Vid) (sh : Shared Tok) (root : Branch Tok Cmt) :
    step up (launched sh root) .main = none ∧ step up (launched sh root) .waiter = none ∧
    ∀ n, n ≠ 0 → step up (launched sh root) (.branch n) = none := by
  refine ⟨by simp [step, launched, stepMain], by simp [step, launched, stepWaiter], ?_⟩
  intro n hn
  cases n with
  | zero => exact absurd rfl hn
  | succ n => simp [step, launched, stepBranch]

/-- Claim C5. A job with sort order "age" or "live" whose set-up succeeds and
whose priming page is fetched with `NewComments = tokenX`: the priming fetch is
the first step that can happen, and after it the state holds none of the
comments of the priming page (nothing written, nothing held by the caller, the
only branch about to fetch); the only step that can happen next is that fetch,
and the requests it issues are page requests built from `tokenX`. -/
theorem priming_page_dropped_and_rebased (up : Upstream Tok Cmt Body Vid) (job : Job)
    (videoID : String) (vid : Vid) (sh1 sh2 : Shared Tok) (cont cont1 tokenX : CommentContinuation Tok)
    (page : CommentPage Tok Cmt)
    (hsort : job.SortOrder = "age" ∨ job.SortOrder = "live")
    (hid : up.GetVideoID job.VideoID = .ok videoID)
    (hvid : simpleGetVideo up { job := job, net := [], logs := [] } videoID = (.ok vid, sh1))
    (hcont : up.InitialCommentContinuation vid = some cont)
    (hprime : videoCommentsJob.nextCommentPage up sh1 cont (-1) = (.ok (page, cont1), sh2))
    (hnew : page.NewComments = some tokenX) :
    step up (streamComments up job) .main = none ∧
    step up (streamComments up job) .waiter = none ∧
    (∀ n, n ≠ 0 → step up (streamComments up job) (.branch n) = none) ∧
    step up (streamComments up job) (.branch 0)
      = some (launched sh2 (rebasedRoot job.SortOrder tokenX)) ∧
    (launched sh2 (rebasedRoot job.SortOrder tokenX) : State Tok Cmt).out = [] ∧
    (rebasedRoot job.SortOrder tokenX : Branch Tok Cmt).fetchArgs = some (tokenX, 0) ∧
    step up (launched sh2 (rebasedRoot job.SortOrder tokenX)) .main = none ∧
    step up (launched sh2 (rebasedRoot job.SortOrder tokenX)) .waiter = none ∧
    (∀ n, n ≠ 0 → step up (launched sh2 (rebasedRoot job.SortOrder tokenX)) (.branch n) = none) ∧
    ∃ s2 k, step up (launched sh2 (rebasedRoot job.SortOrder tokenX)) (.branch 0) = some s2 ∧
      1 ≤ k ∧ s2.shared.net = sh2.net ++ List.replicate k (Request.commentPage tokenX) := by
  have hfa : (rebasedRoot job.SortOrder tokenX : Branch Tok Cmt).fetchArgs = some (tokenX, 0) := by
    unfold rebasedRoot
    split <;> rfl
  have hs0 : streamComments up job = launched sh1
      (if job.SortOrder = "age" then .streamNewComments cont
       else .streamLiveComments (.prime cont)) := by
    unfold streamComments
    simp only [hid, hvid, hcont]
    rcases hsort with h | h <;> simp [h]
  have hstep : step up (streamComments up job) (.branch 0)
      = some (launched sh2 (rebasedRoot job.SortOrder tokenX)) := by
    rw [hs0]
    rcases hsort with h | h
    · simp [h, step, launched, stepBranch, Branch.act, videoCommentsJob.streamNewComments,
        hprime, hnew, rebasedRoot]
    · simp [h, step, launched, stepBranch, Branch.act, videoCommentsJob.streamLiveComments,
        hprime, hnew, rebasedRoot]
  obtain ⟨q1, q2, q3⟩ := launched_quiet up sh2 (rebasedRoot job.SortOrder tokenX)
  refine ⟨?_, ?_, ?_, hstep, rfl, hfa, q1, q2, q3, ?_⟩
  · rw [hs0]; exact (launched_quiet up sh1 _).1
  · rw [hs0]; exact (launched_quiet up sh1 _).2.1
  · rw [hs0]; exact (launched_quiet up sh1 _).2.2
  · exact step_fetch_net (s := launched sh2 (rebasedRoot job.SortOrder tokenX)) rfl rfl hfa

theorem priming_page_dropped_and_rebased_witness :
    step (rebasedUpstream helloFeed (.comment "n1" .last) 0)
      (streamComments (rebasedUpstream helloFeed (.comment "n1" .last) 0) (jobOf "age"))
      (.branch 0)
    = some (launched
        { job := { VideoID := "abc", SortOrder := "age", Pages := 1, Items := 1 },
          net := [.video "abc", .commentPage ⟨"", helloFeed⟩],
          logs := [.info "Page" (-1) ""] }
        (.streamComments (.fetch ⟨"", .comment "n1" .last⟩ 0))) :=
  (priming_page_dropped_and_rebased (rebasedUpstream helloFeed (.comment "n1" .last) 0)
    (jobOf "age") "abc" helloFeed
    { job := jobOf "age", net := [.video "abc"], logs := [] }
    { job := { VideoID := "abc", SortOrder := "age", Pages := 1, Items := 1 },
      net := [.video "abc", .commentPage ⟨"", helloFeed⟩],
      logs := [.info "Page" (-1) ""] }
    ⟨"", helloFeed⟩ ⟨"", .last⟩ ⟨"", .comment "n1" .last⟩
    ⟨helloFeed.page.1, helloFeed.page.2.1, some ⟨"", .comment "n1" .last⟩, []⟩
    (Or.inl rfl) rfl rfl rfl rfl rfl).2.2.2.1

/-! ### Retries of the page fetch -/

theorem not_setupFails {up : Upstream Tok Cmt Body Vid} {job : Job} (id : String) (vid : Vid)
    (sh : Shared Tok) (cont : CommentContinuation Tok)
    (hid : up.GetVideoID job.VideoID = .ok id)
    (hsv : simpleGetVideo up { job := job, net := [], logs := [] } id = (.ok vid, sh))
    (hc : up.InitialCommentContinuation vid = some cont)
    (hsort : job.SortOrder = "top" ∨ job.SortOrder = "age" ∨ job.SortOrder = "live") :
    ¬ setupFails up job := by
  intro h
  rcases h with ⟨e, he⟩ | ⟨id1, e, hid1, he⟩ | ⟨id1, vid1, hid1, hv, hn⟩ | ⟨n1, n2, n3⟩
  · rw [hid] at he; cases he
  · rw [hid] at hid1; cases hid1
    rw [hsv] at he; cases he
  · rw [hid] at hid1; cases hid1
    rw [hsv] at hv; cases hv
    rw [hc] at hn; cases hn
  · rcases hsort with h | h | h
    · exact n1 h
    · exact n2 h
    · exact n3 h

theorem streamComments_cases (up : Upstream Tok Cmt Body Vid) (job : Job) :
    (setupFails up job ∧ ∃ sh e, streamComments up job = failed sh e) ∨
    (¬ setupFails up job ∧ ∃ sh root, streamComments up job = launched sh root) := by
  unfold streamComments
  cases hid : up.GetVideoID job.VideoID with
  | error e => exact Or.inl ⟨Or.inl ⟨e, hid⟩, _, _, rfl⟩
  | ok id =>
    simp only
    cases hsv : simpleGetVideo up { job := job, net := [], logs := [] } id with
    | mk r1 r2 =>
    cases r1 with
    | error e => exact Or.inl ⟨Or.inr (Or.inl ⟨id, e, hid, by rw [hsv]⟩), _, _, rfl⟩
    | ok vid =>
      simp only
      cases hc : up.InitialCommentContinuation vid with
      | none =>
        exact Or.inl ⟨Or.inr (Or.inr (Or.inl ⟨id, vid, hid, by rw [hsv], hc⟩)), _, _, rfl⟩
      | some cont =>
        simp only
        by_cases h1 : job.SortOrder = "top"
        · exact Or.inr ⟨not_setupFails _ _ _ _ hid hsv hc (Or.inl h1), _, _,
            by simp only [h1, if_true]; rfl⟩
        · by_cases h2 : job.SortOrder = "age"
          · exact Or.inr ⟨not_setupFails _ _ _ _ hid hsv hc (Or.inr (Or.inl h2)), _, _,
              by simp only [h1, h2, if_true, if_false]; rfl⟩
          · by_cases h3 : job.SortOrder = "live"
            · exact Or.inr ⟨not_setupFails _ _ _ _ hid hsv hc (Or.inr (Or.inr h3)), _, _,
                by simp only [h1, h2, h3, if_true, if_false]; rfl⟩
            · exact Or.inl ⟨Or.inr (Or.inr (Or.inr ⟨h1, h2, h3⟩)), _, _,
                by simp only [h1, h2, h3, if_false]; rfl⟩

theorem started_exec {up : Upstream Tok Cmt Body Vid} (sched : List Tid) :
    ∀ {s : State Tok Cmt}, s.waiter ≠ .absent → (exec up s sched).waiter ≠ .absent := by
  induction sched with
  | nil => intro s h; exact h
  | cons t ts ih =>
    intro s h
    simp only [exec]
    apply ih
    cases hs : step up s t with
    | none => simpa using h
    | some s1 =>
      simp only [Option.getD_some]
      unfold step at hs
      split at hs
      · simp at hs
      · cases t with
        | main =>
          simp only [stepMain] at hs
          split at hs
          · split at hs
            · cases hs; exact h
            · simp at hs
          · split at hs <;> cases hs <;> exact h
          · simp at hs
        | waiter =>
          simp only [stepWaiter] at hs
          split at hs
          · simp at hs
          · split at hs
            · cases hs; simp
            · simp at hs
          · split at hs
            · cases hs; exact h
            · cases hs; simp
          · simp at hs
        | branch n =>
          simp only [stepBranch] at hs
          split at hs
          · simp at hs
          · split at hs
            · simp at hs
            · cases hs; exact h
            · cases hs; exact h
            · split at hs
              · cases hs; exact h
              · split at hs
                · cases hs; exact h
                · simp at hs
            · split at hs <;> cases hs <;> exact h
            · cases hs; exact h

theorem returns_after_branches {up : Upstream Tok Cmt Body Vid} {s : State Tok Cmt} (h : Inv s)
    (hw : s.waiter ≠ .absent) (hc : s.crashed = false)
    (hr : ∀ b ∈ s.branches, b = Branch.returned) :
    (exec up s [.waiter, .waiter, .main, .main]).crashed = true ∨
    (exec up s [.waiter, .waiter, .main, .main]).main = .returned none := by
  have h0 : s.wg = 0 := by rw [h.wg_eq]; exact liveCount_eq_zero.mpr hr
  have hm := h.started hw
  cases hwt : s.waiter with
  | absent => exact absurd hwt hw
  | wait =>
    have hcl := h.wait hwt
    cases hmain : s.main with
    | recv => right; simp [exec, step, stepWaiter, stepMain, hc, hwt, h0, hcl, hmain]
    | returned r =>
      cases r with
      | none => right; simp [exec, step, stepWaiter, stepMain, hc, hwt, h0, hcl, hmain]
      | some e => exact absurd hmain (hm e)
    | hold c =>
      cases hmar : up.Marshal c with
      | error e =>
        left; simp [exec, step, stepWaiter, stepMain, hc, hwt, h0, hcl, hmain, hmar, State.crash]
      | ok buf =>
        right; simp [exec, step, stepWaiter, stepMain, hc, hwt, h0, hcl, hmain, hmar]
  | close =>
    have hcl := (h.close hwt).2
    cases hmain : s.main with
    | recv => right; simp [exec, step, stepWaiter, stepMain, hc, hwt, hcl, hmain]
    | returned r =>
      cases r with
      | none => right; simp [exec, step, stepWaiter, stepMain, hc, hwt, hcl, hmain]
      | some e => exact absurd hmain (hm e)
    | hold c =>
      cases hmar : up.Marshal c with
      | error e =>
        left; simp [exec, step, stepWaiter, stepMain, hc, hwt, hcl, hmain, hmar, State.crash]
      | ok buf =>
        right; simp [exec, step, stepWaiter, stepMain, hc, hwt, hcl, hmain, hmar]
  | done =>
    have hcl := (h.done hwt).1
    cases hmain : s.main with
    | recv => right; simp [exec, step, stepWaiter, stepMain, hc, hwt, hcl, hmain]
    | returned r =>
      cases r with
      | none => right; simp [exec, step, stepWaiter, stepMain, hc, hwt, hcl, hmain]
      | some e => exact absurd hmain (hm e)
    | hold c =>
      cases hmar : up.Marshal c with
      | error e =>
        left; simp [exec, step, stepWaiter, stepMain, hc, hwt, hcl, hmain, hmar, State.crash]
      | ok buf =>
        right; simp [exec, step, stepWaiter, stepMain, hc, hwt, hcl, hmain, hmar]

theorem returns_exactly_after_branches {up : Upstream Tok Cmt Body Vid} {s : State Tok Cmt}
    (h : Inv s) (hw : s.waiter ≠ .absent) (hc : s.crashed = false)
    (hr : ∀ b ∈ s.branches, b = Branch.returned) :
    ((∀ c, s.main = .hold c → ∃ buf, up.Marshal c = .ok buf) →
      (exec up s [.waiter, .waiter, .main, .main]).main = .returned none ∧
      (exec up s [.waiter, .waiter, .main, .main]).crashed = false) ∧
    (∀ c e, s.main = .hold c → up.Marshal c = .error e →
      (exec up s [.waiter, .waiter, .main, .main]).main = .hold c ∧
      (exec up s [.waiter, .waiter, .main, .main]).crashed = true) := by
  have h0 : s.wg = 0 := by rw [h.wg_eq]; exact liveCount_eq_zero.mpr hr
  have hm := h.started hw
  have hclosed : (exec up s [.waiter, .waiter]).closed = true ∧
      (exec up s [.waiter, .waiter]).main = s.main ∧
      (exec up s [.waiter, .waiter]).crashed = false ∧
      (exec up s [.waiter, .waiter]).out = s.out := by
    cases hwt : s.waiter with
    | absent => exact absurd hwt hw
    | wait =>
      have hcl := h.wait hwt
      simp [exec, step, stepWaiter, hc, hwt, h0, hcl]
    | close =>
      have hcl := (h.close hwt).2
      simp [exec, step, stepWaiter, hc, hwt, hcl]
    | done =>
      have hcl := (h.done hwt).1
      simp [exec, step, stepWaiter, hc, hwt, hcl]
  have hsplit : exec up s [.waiter, .waiter, .main, .main]
      = exec up (exec up s [.waiter, .waiter]) [.main, .main] := rfl
  rw [hsplit]
  generalize exec up s [.waiter, .waiter] = s2 at hclosed
  obtain ⟨hcl2, hm2, hc2, _⟩ := hclosed
  constructor
  · intro hmar
    cases hmain : s.main with
    | recv => simp [exec, step, stepMain, hc2, hm2, hmain, hcl2]
    | returned r =>
      cases r with
      | none => simp [exec, step, stepMain, hc2, hm2, hmain]
      | some e => exact absurd hmain (hm e)
    | hold c =>
      obtain ⟨buf, hbuf⟩ := hmar c hmain
      simp [exec, step, stepMain, hc2, hm2, hmain, hbuf, hcl2]
  · intro c e hmain hmar
    simp [exec, step, stepMain, hc2, hm2, hmain, hmar, State.crash]

/-- Claim C8, as the code has it. In every state that a schedule reaches,
`streamComments` has returned an error exactly when a step of its set-up
failed, and then nothing has been written and no goroutine exists.  When the
set-up succeeds it never returns an error, whatever the branches meet; if it
has returned `nil` the comment channel is closed and every branch has
returned; while it has not returned and the process has not panicked some
goroutine can move; and once every branch has returned, the next steps of the
waiter and of the caller make it return `nil`, provided `json.Marshal` accepts
the comment the caller may still hold; if it does not, the caller panics
(line 76) and does not return. -/
theorem streamComments_error_iff_setup_fails (up : Upstream Tok Cmt Body Vid) (job : Job)
    (sched : List Tid) :
    ((∃ e, (exec up (streamComments up job) sched).main = .returned (some e))
      ↔ setupFails up job) ∧
    (setupFails up job →
      (exec up (streamComments up job) sched).out = [] ∧
      (exec up (streamComments up job) sched).branches = []) ∧
    (¬ setupFails up job →
      ((exec up (streamComments up job) sched).main = .returned none →
        (exec up (streamComments up job) sched).closed = true ∧
        ∀ b ∈ (exec up (streamComments up job) sched).branches, b = Branch.returned) ∧
      ((exec up (streamComments up job) sched).crashed = false →
        (∀ r, (exec up (streamComments up job) sched).main ≠ .returned r) →
        ∃ t s1, step up (exec up (streamComments up job) sched) t = some s1) ∧
      ((exec up (streamComments up job) sched).crashed = false →
        (∀ b ∈ (exec up (streamComments up job) sched).branches, b = Branch.returned) →
        (exec up (exec up (streamComments up job) sched)
          [.waiter, .waiter, .main, .main]).crashed = true ∨
        (exec up (exec up (streamComments up job) sched)
          [.waiter, .waiter, .main, .main]).main = .returned none) ∧
      ((exec up (streamComments up job) sched).crashed = false →
        (∀ b ∈ (exec up (streamComments up job) sched).branches, b = Branch.returned) →
        (∀ c, (exec up (streamComments up job) sched).main = .hold c →
          ∃ buf, up.Marshal c = .ok buf) →
        (exec up (exec up (streamComments up job) sched)
          [.waiter, .waiter, .main, .main]).main = .returned none ∧
        (exec up (exec up (streamComments up job) sched)
          [.waiter, .waiter, .main, .main]).crashed = false) ∧
      ((exec up (streamComments up job) sched).crashed = false →
        (∀ b ∈ (exec up (streamComments up job) sched).branches, b = Branch.returned) →
        ∀ c e, (exec up (streamComments up job) sched).main = .hold c →
          up.Marshal c = .error e →
          (exec up (exec up (streamComments up job) sched)
            [.waiter, .waiter, .main, .main]).main = .hold c ∧
          (exec up (exec up (streamComments up job) sched)
            [.waiter, .waiter, .main, .main]).crashed = true)) := by
  have hinv := inv_reachable up job sched
  rcases streamComments_cases up job with ⟨hf, sh, e, hs⟩ | ⟨hf, sh, root, hs⟩
  · have he : exec up (streamComments up job) sched = failed sh e := by
      rw [hs]; exact exec_failed up sh e sched
    refine ⟨⟨fun _ => hf, fun _ => ⟨e, by rw [he]; rfl⟩⟩, fun _ => by rw [he]; exact ⟨rfl, rfl⟩,
      fun h => absurd hf h⟩
  · have hw : (exec up (streamComments up job) sched).waiter ≠ .absent := by
      apply started_exec
      rw [hs]
      simp [launched]
    have hne := hinv.started hw
    refine ⟨⟨fun ⟨e, he⟩ => absurd he (hne e), fun h => absurd h hf⟩, fun h => absurd h hf,
      fun _ => ⟨?_, ?_, ?_, ?_, ?_⟩⟩
    · intro hm
      have hcl := hinv.mainNil hm
      refine ⟨hcl, ?_⟩
      apply liveCount_eq_zero.mp
      rw [← hinv.wg_eq]
      cases hwt : (exec up (streamComments up job) sched).waiter with
      | absent => exact absurd hwt hw
      | wait => have := hinv.wait hwt; simp [hcl] at this
      | close => exact (hinv.close hwt).1
      | done => exact (hinv.done hwt).2
    · intro hc hm
      exact progress up hinv hc hm
    · intro hc hr
      exact returns_after_branches hinv hw hc hr
    · intro hc hr hmar
      exact (returns_exactly_after_branches hinv hw hc hr).1 hmar
    · intro hc hr c e hmain hmar
      exact (returns_exactly_after_branches hinv hw hc hr).2 c e hmain hmar

theorem rebased_nextCommentPage (budget : Nat) (sh : Shared Feed) (i : Int) :
    (videoCommentsJob.nextCommentPage (rebasedUpstream emptyFeed emptyFeed budget) sh
      ⟨"", emptyFeed⟩ i).1 = .ok (⟨[], false, some ⟨"", emptyFeed⟩, []⟩, ⟨"", emptyFeed⟩) := by
  unfold videoCommentsJob.nextCommentPage
  rw [Retry_ok { sh with net := sh.net ++ [.commentPage ⟨"", emptyFeed⟩] } ⟨200, emptyFeed⟩]
  · simp [rebasedUpstream, emptyFeed, Feed.page, StatusRequestEntityTooLarge,
      StatusRequestURITooLong]
  · simp [doRequest, rebasedUpstream, feedUpstream, emptyFeed]

theorem liveLoop_step {budget : Nat} {s s1 : State Feed FeedComment} {t : Tid}
    (h : LiveLoop s) (hs : step (rebasedUpstream emptyFeed emptyFeed budget) s t = some s1) :
    LiveLoop s1 := by
  obtain ⟨hm, hcl, hw, hwg, hc, hb⟩ := h
  unfold step at hs
  simp only [hc, Bool.false_eq_true, if_false] at hs
  cases t with
  | main => simp [stepMain, hm, hcl] at hs
  | waiter => simp [stepWaiter, hw, hwg] at hs
  | branch n =>
    rcases hb with hb | ⟨i, hb | hb⟩
    · cases n with
      | succ n => simp [stepBranch, hb] at hs
      | zero =>
        have hn := rebased_nextCommentPage budget s.shared (-1)
        simp only [stepBranch, hb, List.getElem?_cons_zero, Branch.act,
          videoCommentsJob.streamLiveComments] at hs
        generalize videoCommentsJob.nextCommentPage (rebasedUpstream emptyFeed emptyFeed budget)
          s.shared ⟨"", emptyFeed⟩ (-1) = r at hn hs
        obtain ⟨r1, r2⟩ := r
        simp only at hn
        subst hn
        simp only [Option.some.injEq] at hs
        subst hs
        exact ⟨hm, hcl, hw, hwg, hc, Or.inr ⟨0, Or.inl (by simp [hb])⟩⟩
    · cases n with
      | succ n => simp [stepBranch, hb] at hs
      | zero =>
        have hn := rebased_nextCommentPage budget s.shared i
        simp only [stepBranch, hb, List.getElem?_cons_zero, Branch.act,
          videoCommentsJob.streamLiveComments] at hs
        generalize videoCommentsJob.nextCommentPage (rebasedUpstream emptyFeed emptyFeed budget)
          s.shared ⟨"", emptyFeed⟩ i = r at hn hs
        obtain ⟨r1, r2⟩ := r
        simp only at hn
        subst hn
        simp only [Option.some.injEq] at hs
        subst hs
        exact ⟨hm, hcl, hw, hwg, hc, Or.inr ⟨i, Or.inr (by simp [hb])⟩⟩
    · cases n with
      | succ n => simp [stepBranch, hb] at hs
      | zero =>
        simp only [stepBranch, hb, List.getElem?_cons_zero, Branch.act,
          videoCommentsJob.streamLiveComments, Option.some.injEq] at hs
        subst hs
        exact ⟨hm, hcl, hw, hwg, hc, Or.inr ⟨i + 1, Or.inl (by simp [hb])⟩⟩

theorem liveLoop_exec (budget : Nat) (sched : List Tid) :
    ∀ {s : State Feed FeedComment}, LiveLoop s →
      LiveLoop (exec (rebasedUpstream emptyFeed emptyFeed budget) s sched) := by
  induction sched with
  | nil => intro s h; exact h
  | cons t ts ih =>
    intro s h
    simp only [exec]
    apply ih
    cases hs : step (rebasedUpstream emptyFeed emptyFeed budget) s t with
    | none => simpa using h
    | some s1 => simpa using liveLoop_step h hs

theorem liveLoop_start :
    LiveLoop (streamComments (rebasedUpstream emptyFeed emptyFeed 0) (jobOf "live")) := by
  refine ⟨by decide, by decide, by decide, by decide, by decide, Or.inl (by decide)⟩

/-- Claim C8, as stated, fails. The set-up of this "live" job succeeds, and yet
`streamComments` never returns, neither `nil` nor an error, under any schedule:
every poll succeeds and the root branch polls again. -/
theorem live_job_never_returns :
    ¬ setupFails (rebasedUpstream emptyFeed emptyFeed 0) (jobOf "live") ∧
    ¬ ∃ sched r, (exec (rebasedUpstream emptyFeed emptyFeed 0)
      (streamComments (rebasedUpstream emptyFeed emptyFeed 0) (jobOf "live")) sched).main
        = .returned r := by
  constructor
  · exact not_setupFails "abc" emptyFeed
      { job := jobOf "live", net := [.video "abc"], logs := [] }
      ⟨"", emptyFeed⟩ rfl rfl rfl (Or.inr (Or.inr rfl))
  · rintro ⟨sched, r, hr⟩
    have h := liveLoop_exec 0 sched liveLoop_start
    rw [h.1] at hr
    cases hr

set_option maxRecDepth 100000 in
theorem streamComments_error_iff_setup_fails_witness :
    ¬ setupFails (feedUpstream helloFeed 0) (jobOf "top") ∧
    (exec (feedUpstream helloFeed 0) (streamComments (feedUpstream helloFeed 0) (jobOf "top"))
      (roundRobin 10 2)).main = .returned none ∧
    (exec (feedUpstream helloFeed 0) (streamComments (feedUpstream helloFeed 0) (jobOf "top"))
      (roundRobin 10 2)).closed = true :=
  ⟨not_setupFails "abc" helloFeed
      { job := jobOf "top", net := [.video "abc"], logs := [] }
      ⟨"", helloFeed⟩ rfl rfl rfl (Or.inl rfl),
    by decide,
    (((streamComments_error_iff_setup_fails (feedUpstream helloFeed 0) (jobOf "top")
      (roundRobin 10 2)).2.2
      (not_setupFails "abc" helloFeed
      { job := jobOf "top", net := [.video "abc"], logs := [] }
      ⟨"", helloFeed⟩ rfl rfl rfl (Or.inl rfl))).1 (by decide)).1⟩

/-- Claim C10, the failing input. The first comment page of this upstream parses
without error and has no `NewComments`; the "age" job dereferences the nil
pointer in its first step and the process panics. -/
theorem age_priming_without_newComments_panics :
    (videoCommentsJob.nextCommentPage (feedUpstream helloFeed 0)
      (streamComments (feedUpstream helloFeed 0) (jobOf "age")).shared ⟨"", helloFeed⟩ (-1)).1
      = .ok (⟨[⟨"hello", some (.comment "r1" (.comment "r2" .last))⟩], false, none, []⟩,
          ⟨"", .last⟩) ∧
    (exec (feedUpstream helloFeed 0) (streamComments (feedUpstream helloFeed 0) (jobOf "age"))
      [.branch 0]).crashed = true ∧
    (exec (feedUpstream helloFeed 0) (streamComments (feedUpstream helloFeed 0) (jobOf "live"))
      [.branch 0]).crashed = true := by
  refine ⟨rfl, by decide, by decide⟩

/-! ### Limit reached -/

end Ytwrk
